import Mathlib

/-!
# Verification of the alevel-raycaster core

A shallow embedding, in Lean 4, of the core of the `alevel-raycaster`
repository: the seeded random-number utility (`randomNumberGenerator.cpp`),
the depth-first maze generator (`depthFirstMazeGenerator.cpp`), the
recursive-division maze generator (`recursiveDivisionMazeGenerator.cpp`)
and the DDA grid traversal of the ray caster (`raycaster.cpp`), together
with theorems settling the specification's claims about them.

Modelling conventions:
* C++ `int` values are modelled as `ℤ`; C++ `%` is `Int.tmod` and C++ `/`
  is `Int.tdiv` (both truncate toward zero, as C++ does since C++11).
* The Mersenne Twister together with `std::uniform_int_distribution` is
  modelled by an oracle stream of raw naturals (`Gen`) and a sampler that
  maps a raw draw into the requested interval, which is the guarantee the
  C++ standard library gives.  Every seed of the real program induces one
  such stream, so theorems quantified over all streams cover every seed.
* Grids (`std::vector<std::vector<int>>` indexed `maze[y][x]`) are
  modelled as total functions `ℤ → ℤ → ℤ` (row first), with pointwise
  update; every access the claims touch is bounds-guarded in the source.
* The ray caster's floating-point quantities are modelled by exact
  rationals extended with the IEEE special values `+∞` and `NaN` that the
  source produces on division by zero (`Xf` below); trigonometry is
  abstracted by quantifying over the ray direction vector.
-/

namespace RNG

/-- The raw pseudo-random source: an infinite stream of naturals.  This is
the oracle abstraction of the seeded `std::mt19937` member `generator`. -/
def Gen : Type := ℕ → ℕ

/-- The next raw draw of the stream. -/
def Gen.head (g : Gen) : ℕ := g 0

/-- The stream after consuming one raw draw. -/
def Gen.tail (g : Gen) : Gen := fun n => g (n + 1)

/-- The all-zeros stream, used to instantiate theorems at concrete runs. -/
def zeroGen : Gen := fun _ => 0

/-- Model of `std::uniform_int_distribution<int> dist(lo, hi); dist(generator)`:
consume one raw draw and map it into `[lo, hi]`.  The C++ standard library
guarantees a result in `[lo, hi]` (for `lo ≤ hi`); the concrete mapping used
here realises that guarantee while keeping the model executable. -/
def uniformSample (g : Gen) (lo hi : ℤ) : ℤ × Gen :=
  (lo + (g.head : ℤ) % (hi - lo + 1), g.tail)

/-- `RandomNumberGenerator::randomInt`: throws `std::invalid_argument`
(modelled as `Except.error`) when `min > max`, otherwise samples uniformly
in `[min, max]`. -/
def randomInt (g : Gen) (min max : ℤ) : Except String (ℤ × Gen) :=
  if min > max then
    Except.error "min cannot be greater than max"
  else
    Except.ok (uniformSample g min max)

/-- `RandomNumberGenerator::randomOdd`: adjust the bounds to odd values
(`min % 2 == 0` / `max % 2 == 0` tests, C++ truncated `%`), return the
adjusted `min` when the adjusted range is empty, otherwise sample an index
among the odd values of the range. -/
def randomOdd (g : Gen) (min max : ℤ) : ℤ × Gen :=
  let min1 := if Int.tmod min 2 = 0 then min + 1 else min
  let max1 := if Int.tmod max 2 = 0 then max - 1 else max
  if min1 > max1 then (min1, g)
  else
    let numOdds := Int.tdiv (max1 - min1) 2 + 1
    let s := uniformSample g 0 (numOdds - 1)
    (min1 + s.1 * 2, s.2)

/-- `RandomNumberGenerator::randomEven`: same shape as `randomOdd`, but the
oddness tests are written `min % 2 == 1` / `max % 2 == 1` in the source,
which is false for negative odd arguments under C++ truncated `%`. -/
def randomEven (g : Gen) (min max : ℤ) : ℤ × Gen :=
  let min1 := if Int.tmod min 2 = 1 then min + 1 else min
  let max1 := if Int.tmod max 2 = 1 then max - 1 else max
  if min1 > max1 then (min1, g)
  else
    let numEvens := Int.tdiv (max1 - min1) 2 + 1
    let s := uniformSample g 0 (numEvens - 1)
    (min1 + s.1 * 2, s.2)

/-- `RandomNumberGenerator::randomBoolean`. -/
def randomBoolean (g : Gen) : Bool × Gen :=
  let s := uniformSample g 0 1
  (s.1 == 1, s.2)

/-- The spec's reading of `randomEven`: adjust `min` upward and `max`
downward to the nearest value of even parity, return the adjusted `min`
without sampling when the adjusted range is empty, otherwise sample among
the even values of the adjusted range.  Used to compare the spec's words
with the code. -/
def randomEvenSpec (g : Gen) (min max : ℤ) : ℤ × Gen :=
  let min1 := if min % 2 = 0 then min else min + 1
  let max1 := if max % 2 = 0 then max else max - 1
  if min1 > max1 then (min1, g)
  else
    let numEvens := (max1 - min1) / 2 + 1
    let s := uniformSample g 0 (numEvens - 1)
    (min1 + s.1 * 2, s.2)

end RNG

namespace Grid

/-- Pointwise update of a grid function, modelling `maze[y][x] = v`. -/
def upd (m : ℤ → ℤ → ℤ) (y x v : ℤ) : ℤ → ℤ → ℤ :=
  fun y' x' => if y' = y ∧ x' = x then v else m y' x'

end Grid

namespace RecDiv

/-- `Point` from `recursiveDivisionMazeGenerator.h`: constructed `Point(y, x)`. -/
structure Point where
  y : ℤ
  x : ℤ
deriving DecidableEq, Repr

/-- Cell codes from the `CellType` enum. -/
def WALL : ℤ := 1

/-- Cell code of traversable cells. -/
def PASSAGE : ℤ := 0

/-- The `Division` class hierarchy: an abstract base with concrete
`HorizontalDivision (line, passageX, chamberX, chamberWidth)` and
`VerticalDivision (line, passageY, chamberY, chamberHeight)`, modelled as a
tagged variant carrying the same fields. -/
inductive Division where
  | horizontal (line passageX startCoord wallLength : ℤ)
  | vertical (line passageY startCoord wallLength : ℤ)
deriving DecidableEq, Repr

/-- `Division::getLine`. -/
def Division.getLine : Division → ℤ
  | .horizontal line _ _ _ => line
  | .vertical line _ _ _ => line

/-- `getWallPoints`: the cells of the dividing wall, one per offset in
`[startCoord, startCoord + wallLength)`. -/
def Division.getWallPoints : Division → List Point
  | .horizontal line _ startCoord wallLength =>
      (List.range wallLength.toNat).map (fun i : ℕ => ⟨line, startCoord + (i : ℤ)⟩)
  | .vertical line _ startCoord wallLength =>
      (List.range wallLength.toNat).map (fun i : ℕ => ⟨startCoord + (i : ℤ), line⟩)

/-- `getPassagePoint`: the single breach cell on the dividing wall. -/
def Division.getPassagePoint : Division → Point
  | .horizontal line passageX _ _ => ⟨line, passageX⟩
  | .vertical line passageY _ _ => ⟨passageY, line⟩

/-- `Rectangle` from `recursiveDivisionMazeGenerator.h`: `x, y` are the
top-left corner. -/
structure Rectangle where
  x : ℤ
  y : ℤ
  width : ℤ
  height : ℤ
deriving DecidableEq, Repr

/-- `Rectangle::canSubdivide`. -/
def canSubdivide (r : Rectangle) : Prop := 3 ≤ r.width ∧ 3 ≤ r.height

instance (r : Rectangle) : Decidable (canSubdivide r) := by
  unfold canSubdivide; infer_instance

/-- `Rectangle::split`: the two sub-chambers on either side of the division
line (the C++ dispatches on the dynamic type of the division). -/
def Rectangle.split (r : Rectangle) (d : Division) : List Rectangle :=
  match d with
  | .horizontal line _ _ _ =>
      [⟨r.x, r.y, r.width, line - r.y⟩,
       ⟨r.x, line + 1, r.width, (r.y + r.height) - (line + 1)⟩]
  | .vertical line _ _ _ =>
      [⟨r.x, r.y, line - r.x, r.height⟩,
       ⟨line + 1, r.y, (r.x + r.width) - (line + 1), r.height⟩]

inductive Orientation where
  | horizontal
  | vertical
deriving DecidableEq

/-- The generator's mutable state during `generateMaze`, together with
ghost logs recording every chamber passed to `subdivide`, every division
created, and every grid write that passed the bounds guard of
`drawWall` / `createPassage`. -/
structure GenState where
  maze : ℤ → ℤ → ℤ
  g : RNG.Gen
  chamberLog : List Rectangle
  divLog : List (Rectangle × Division)
  writeLog : List Point

/-- `chooseDivisionOrientation`: wider chambers split vertically, taller
ones horizontally, square ones by a coin flip. -/
def chooseDivisionOrientation (r : Rectangle) (g : RNG.Gen) :
    Orientation × RNG.Gen :=
  if r.height < r.width then (Orientation.vertical, g)
  else if r.width < r.height then (Orientation.horizontal, g)
  else
    let b := RNG.randomBoolean g
    (if b.1 then Orientation.horizontal else Orientation.vertical, b.2)

/-- `createDivision`: a random odd division line strictly inside the
chamber (by intent) and a random even passage offset across it. -/
def createDivision (r : Rectangle) (g : RNG.Gen) : Division × RNG.Gen :=
  let og := chooseDivisionOrientation r g
  match og.1 with
  | Orientation.horizontal =>
      let lg := RNG.randomOdd og.2 (r.y + 1) (r.y + r.height - 2)
      let pg := RNG.randomEven lg.2 r.x (r.x + r.width - 1)
      (Division.horizontal lg.1 pg.1 r.x r.width, pg.2)
  | Orientation.vertical =>
      let lg := RNG.randomOdd og.2 (r.x + 1) (r.x + r.width - 2)
      let pg := RNG.randomEven lg.2 r.y (r.y + r.height - 1)
      (Division.vertical lg.1 pg.1 r.y r.height, pg.2)

/-- `drawWall`: write `WALL` at every wall point that passes the source's
guard `point.x >= 0 && point.x < height && point.y >= 0 && point.y < width`
(note the guard compares `x` against the height and `y` against the width,
while the write is `maze[point.y][point.x]`). -/
def drawWall (W H : ℤ) (st : GenState) (d : Division) : GenState :=
  d.getWallPoints.foldl
    (fun s p =>
      if 0 ≤ p.x ∧ p.x < H ∧ 0 ≤ p.y ∧ p.y < W then
        { s with maze := Grid.upd s.maze p.y p.x WALL,
                 writeLog := s.writeLog ++ [p] }
      else s)
    st

/-- `createPassage`: write `PASSAGE` at the breach point, under the same
guard as `drawWall`. -/
def createPassage (W H : ℤ) (st : GenState) (d : Division) : GenState :=
  let p := d.getPassagePoint
  if 0 ≤ p.x ∧ p.x < H ∧ 0 ≤ p.y ∧ p.y < W then
    { st with maze := Grid.upd st.maze p.y p.x PASSAGE,
              writeLog := st.writeLog ++ [p] }
  else st

/-- `subdivide`, with a fuel parameter standing for the call-stack depth
(the C++ recursion always terminates because the chamber perimeter
shrinks; `generateMaze` below supplies enough fuel for any grid). -/
def subdivide (W H : ℤ) : ℕ → Rectangle → GenState → GenState
  | 0, r, st => { st with chamberLog := st.chamberLog ++ [r] }
  | fuel + 1, r, st =>
    if canSubdivide r then
      let dg := createDivision r st.g
      let st2 := { st with chamberLog := st.chamberLog ++ [r], g := dg.2,
                           divLog := st.divLog ++ [(r, dg.1)] }
      let st3 := createPassage W H (drawWall W H st2 dg.1) dg.1
      (r.split dg.1).foldl (fun s c => subdivide W H fuel c s) st3
    else { st with chamberLog := st.chamberLog ++ [r] }

/-- The constructor's width normalization: `if (width % 2 == 0) width++`. -/
def normDim (w : ℤ) : ℤ := if Int.tmod w 2 = 0 then w + 1 else w

/-- `initializeGrid`: border cells `WALL`, interior `PASSAGE` (the function
extends the pattern to all of `ℤ²`; the source only allocates the
`height × width` box and all guarded accesses stay inside it). -/
def initGrid (W H : ℤ) : ℤ → ℤ → ℤ :=
  fun y x => if x = 0 ∨ x = W - 1 ∨ y = 0 ∨ y = H - 1 then WALL else PASSAGE

/-- `RecursiveDivisionMazeGenerator::generateMaze`: initialize the grid,
subdivide the interior chamber, then force the entrance and exit open. -/
def generateMaze (w h : ℤ) (g : RNG.Gen) : GenState :=
  let W := normDim w
  let H := normDim h
  let st0 : GenState :=
    { maze := initGrid W H, g := g, chamberLog := [], divLog := [],
      writeLog := [] }
  let st1 := subdivide W H (W + H).toNat ⟨1, 1, W - 2, H - 2⟩ st0
  { st1 with
      maze := Grid.upd (Grid.upd st1.maze 1 0 PASSAGE) (H - 2) (W - 1) PASSAGE }

/-- The cells of a chamber, as a finite set of `(x, y)` pairs. -/
def Rectangle.cells (r : Rectangle) : Finset (ℤ × ℤ) :=
  Finset.Icc r.x (r.x + r.width - 1) ×ˢ Finset.Icc r.y (r.y + r.height - 1)

/-- The cells of the dividing line inside a chamber. -/
def lineCells (r : Rectangle) (d : Division) : Finset (ℤ × ℤ) :=
  match d with
  | .horizontal line _ _ _ => Finset.Icc r.x (r.x + r.width - 1) ×ˢ {line}
  | .vertical line _ _ _ => {line} ×ˢ Finset.Icc r.y (r.y + r.height - 1)

/-- A chamber whose cells stay strictly inside the border frame of a
`W × H` grid. -/
def GoodChamber (W H : ℤ) (r : Rectangle) : Prop :=
  1 ≤ r.x ∧ 1 ≤ r.y ∧ r.x + r.width ≤ W - 1 ∧ r.y + r.height ≤ H - 1

/-- A good chamber with nonnegative extents. -/
def QChamber (W H : ℤ) (r : Rectangle) : Prop :=
  GoodChamber W H r ∧ 0 ≤ r.width ∧ 0 ≤ r.height

/-- What `createDivision` guarantees about a division and its chamber: the
division spans exactly the chamber on the perpendicular axis, the line lies
in `chamber_start + 1 .. chamber_start + extent - 1` on the split axis, and
the passage offset lies in the chamber's span. -/
def DivGood (W H : ℤ) (p : Rectangle × Division) : Prop :=
  QChamber W H p.1 ∧ 3 ≤ p.1.width ∧ 3 ≤ p.1.height ∧
  (match p.2 with
   | .horizontal line px sc wl =>
       sc = p.1.x ∧ wl = p.1.width ∧
       p.1.y + 1 ≤ line ∧ line ≤ p.1.y + p.1.height - 1 ∧
       p.1.x ≤ px ∧ px ≤ p.1.x + p.1.width - 1
   | .vertical line py sc wl =>
       sc = p.1.y ∧ wl = p.1.height ∧
       p.1.x + 1 ≤ line ∧ line ≤ p.1.x + p.1.width - 1 ∧
       p.1.y ≤ py ∧ py ≤ p.1.y + p.1.height - 1)

/-- A point whose write `maze[point.y][point.x]` stays inside the allocated
`height × width` grid: row index in `[0, H)`, column index in `[0, W)`. -/
def InB (W H : ℤ) (q : Point) : Prop :=
  0 ≤ q.x ∧ q.x < W ∧ 0 ≤ q.y ∧ q.y < H

/-- The running invariant on the generator state. -/
def RDInv (W H : ℤ) (st : GenState) : Prop :=
  (∀ r ∈ st.chamberLog, QChamber W H r) ∧
  (∀ p ∈ st.divLog, DivGood W H p) ∧
  (∀ q ∈ st.writeLog, InB W H q)

end RecDiv

namespace Ray

/-- The float values arising in the DDA side-distance computations, in
exact arithmetic: a finite rational, `+∞` (from `abs(1/0.0)`), or `NaN`
(from `0.0 * ∞`).  The float rounding of finite values is idealised to
exact rationals; the special-value propagation follows IEEE-754 as the
C++ produces it. -/
inductive Xf where
  | fin (q : ℚ)
  | inf
  | nan
deriving DecidableEq

/-- IEEE addition (used for `sideDist += deltaDist`). -/
def Xf.add : Xf → Xf → Xf
  | .nan, _ => .nan
  | _, .nan => .nan
  | .fin a, .fin b => .fin (a + b)
  | .inf, _ => .inf
  | _, .inf => .inf

/-- IEEE `<` comparison: false whenever `NaN` participates. -/
def Xf.lt : Xf → Xf → Bool
  | .nan, _ => false
  | _, .nan => false
  | .fin a, .fin b => decide (a < b)
  | .fin _, .inf => true
  | .inf, _ => false

/-- Scaling a delta distance by a nonnegative finite fractional part
(used for the side-distance initialization): `0 * ∞ = NaN`, `q * ∞ = ∞`
for positive `q`. -/
def Xf.scale (q : ℚ) : Xf → Xf
  | .fin d => .fin (q * d)
  | .inf => if q = 0 then .nan else .inf
  | .nan => .nan

/-- `abs(1 / rayDirection)`: `+∞` when the direction component is zero. -/
def deltaDist (d : ℚ) : Xf := if d = 0 then .inf else .fin |1 / d|

/-- The `WallType` enum of `raycaster.cpp`. -/
inductive WallType where
  | horizontal
  | vertical
deriving DecidableEq

/-- The inputs of `castSingleRay`: the stored `worldMap` with its
dimensions (`H = worldMap.size()`, `W = worldMap[0].size()`), the
configured `maxRayDistance`, the start position, and the exact ray
direction `(cos angle, sin angle)` — the trigonometry of the caller is
abstracted by quantifying over the direction vector. -/
structure RayEnv where
  map : ℤ → ℤ → ℤ
  H : ℤ
  W : ℤ
  maxRayDistance : ℚ
  startX : ℚ
  startY : ℚ
  dirX : ℚ
  dirY : ℚ

/-- Exact floor of a rational, as the C++ `floor(float)`; defined by floor
division of numerator by denominator so that it evaluates by kernel
reduction. -/
def qfloor (q : ℚ) : ℤ := Int.fdiv q.num (q.den : ℤ)

/-- `stepX`. -/
def stepX (e : RayEnv) : ℤ := if e.dirX < 0 then -1 else 1

/-- `stepY`. -/
def stepY (e : RayEnv) : ℤ := if e.dirY < 0 then -1 else 1

/-- The mutable locals of the DDA loop.  `distance` is the loop variable
`float distance = 0.0` of the source: it is initialized to zero and —
faithfully to the source — never assigned afterwards.  `hitSide` is
uninitialized in the source; the model fixes an arbitrary initial value,
and no claim depends on it before the loop body first assigns it. -/
structure DdaState where
  sideDistX : Xf
  sideDistY : Xf
  mapX : ℤ
  mapY : ℤ
  hitWall : Bool
  hitSide : WallType
  distance : ℚ
deriving DecidableEq

/-- The state before the loop: `currentMap = floor(start)` and the initial
side distances, by the sign of each direction component. -/
def initState (e : RayEnv) : DdaState :=
  { sideDistX :=
      if e.dirX < 0 then
        Xf.scale (e.startX - (qfloor e.startX : ℚ)) (deltaDist e.dirX)
      else
        Xf.scale ((qfloor e.startX : ℚ) + 1 - e.startX) (deltaDist e.dirX),
    sideDistY :=
      if e.dirY < 0 then
        Xf.scale (e.startY - (qfloor e.startY : ℚ)) (deltaDist e.dirY)
      else
        Xf.scale ((qfloor e.startY : ℚ) + 1 - e.startY) (deltaDist e.dirY),
    mapX := qfloor e.startX,
    mapY := qfloor e.startY,
    hitWall := false,
    hitSide := WallType.horizontal,
    distance := 0 }

/-- One iteration of the DDA loop body: advance the axis with the smaller
accumulated side distance, then check for out-of-bounds (treated as a hit)
or a non-passage cell. -/
def ddaStep (e : RayEnv) (s : DdaState) : DdaState :=
  let s1 :=
    if Xf.lt s.sideDistX s.sideDistY then
      { s with sideDistX := s.sideDistX.add (deltaDist e.dirX),
               mapX := s.mapX + stepX e, hitSide := WallType.vertical }
    else
      { s with sideDistY := s.sideDistY.add (deltaDist e.dirY),
               mapY := s.mapY + stepY e, hitSide := WallType.horizontal }
  if s1.mapY < 0 ∨ s1.mapY ≥ e.H ∨ s1.mapX < 0 ∨ s1.mapX ≥ e.W then
    { s1 with hitWall := true }
  else if e.map s1.mapY s1.mapX ≠ 0 then { s1 with hitWall := true }
  else s1

/-- The loop guard `!hitWall && distance < maxRayDistance` of the source. -/
def ddaGuard (e : RayEnv) (s : DdaState) : Prop :=
  s.hitWall = false ∧ s.distance < e.maxRayDistance

instance (e : RayEnv) (s : DdaState) : Decidable (ddaGuard e s) := by
  unfold ddaGuard; infer_instance

/-- The `while` loop, with a fuel bound on the number of iterations. -/
def ddaRun (e : RayEnv) : ℕ → DdaState → DdaState
  | 0, s => s
  | n + 1, s => if ddaGuard e s then ddaRun e n (ddaStep e s) else s

/-- The emitted `rayHit.wallType`: the hit cell's code under the final
bounds check, or the default wall type `1` when out of bounds. -/
def rayHitWallType (e : RayEnv) (s : DdaState) : ℤ :=
  if 0 ≤ s.mapY ∧ s.mapY < e.H ∧ 0 ≤ s.mapX ∧ s.mapX < e.W then
    e.map s.mapY s.mapX
  else 1

/-- The out-of-bounds condition of the traversal check. -/
def oob (e : RayEnv) (s : DdaState) : Prop :=
  s.mapY < 0 ∨ s.mapY ≥ e.H ∨ s.mapX < 0 ∨ s.mapX ≥ e.W

instance (e : RayEnv) (s : DdaState) : Decidable (oob e s) := by
  unfold oob; infer_instance

/-- A 20×20 all-passage grid, viewer at `(0.5, 0.5)`, exact ray direction
`(4/5, 3/5)`, configured maximum ray distance `2`. -/
def openGrid20 : RayEnv :=
  { map := (fun _ _ => 0), H := 20, W := 20, maxRayDistance := 2,
    startX := 1/2, startY := 1/2, dirX := 4/5, dirY := 3/5 }

/-- A 2×2 all-passage grid, viewer at `(0.5, 0.5)`, ray direction
`(1, 1/2)`, maximum ray distance `10`: the ray exits the grid after three
steps. -/
def openGrid2 : RayEnv :=
  { map := (fun _ _ => 0), H := 2, W := 2, maxRayDistance := 10,
    startX := 1/2, startY := 1/2, dirX := 1, dirY := 1/2 }

end Ray

namespace DFS

/-- The direction array `dx` of `depthFirstMazeGenerator.h`. -/
def dxA (d : ℕ) : ℤ := ([0, 1, 0, -1] : List ℤ).getD d 0

/-- The direction array `dy`. -/
def dyA (d : ℕ) : ℤ := ([-1, 0, 1, 0] : List ℤ).getD d 0

/-- `std::swap(vec[i], vec[j])` on a list. -/
def lswap (v : List ℕ) (i j : ℕ) : List ℕ :=
  (v.set i (v.getD j 0)).set j (v.getD i 0)

/-- The countdown loop of the Fisher-Yates `shuffle` template: for `i` from
`size - 1` down to `1`, draw `j` uniformly in `[0, i]` and swap. -/
def fyAux : ℕ → List ℕ × RNG.Gen → List ℕ × RNG.Gen
  | 0, vg => vg
  | i + 1, (v, g) =>
    let s := RNG.uniformSample g 0 ((i : ℤ) + 1)
    fyAux i (lswap v (i + 1) s.1.toNat, s.2)

/-- `RandomNumberGenerator::shuffle`. -/
def shuffle (v : List ℕ) (g : RNG.Gen) : List ℕ × RNG.Gen :=
  fyAux (v.length - 1) (v, g)

/-- `getRandomDirections`: shuffle `{0, 1, 2, 3}`. -/
def getRandomDirections (g : RNG.Gen) : List ℕ × RNG.Gen :=
  shuffle [0, 1, 2, 3] g

/-- `DepthFirstMazeGenerator::isValid`. -/
def isValid (w h x y : ℤ) : Prop := 0 ≤ x ∧ x < w ∧ 0 ≤ y ∧ y < h

instance (w h x y : ℤ) : Decidable (isValid w h x y) := by
  unfold isValid; infer_instance

/-- `DepthFirstMazeGenerator::isUnvisited`: valid and still a wall. -/
def isUnvisited (w h : ℤ) (m : ℤ → ℤ → ℤ) (x y : ℤ) : Prop :=
  isValid w h x y ∧ m y x = 1

instance (w h : ℤ) (m : ℤ → ℤ → ℤ) (x y : ℤ) : Decidable (isUnvisited w h m x y) := by
  unfold isUnvisited; infer_instance

/-- The wall cell carved between two cells at distance two: `current +
(next - current) / 2` with C++ integer division. -/
def midpt (e : (ℤ × ℤ) × (ℤ × ℤ)) : ℤ × ℤ :=
  (e.1.1 + Int.tdiv (e.2.1 - e.1.1) 2, e.1.2 + Int.tdiv (e.2.2 - e.1.2) 2)

/-- The wall cells carved so far, one per recorded edge. -/
def mids (E : List ((ℤ × ℤ) × (ℤ × ℤ))) : List (ℤ × ℤ) := E.map midpt

/-- The state of `generateMaze`: the grid, the backtracking stack and the
generator, together with ghost logs `vis` (cells marked passage, in
discovery order) and `edges` (carves, as (current, next) pairs) that record
the run without influencing it. -/
structure IState where
  maze : ℤ → ℤ → ℤ
  stack : List (ℤ × ℤ)
  g : RNG.Gen
  vis : List (ℤ × ℤ)
  edges : List ((ℤ × ℤ) × (ℤ × ℤ))

/-- The unvisited distance-2 neighbors of the current cell, in the given
direction order. -/
def nbrCells (w h : ℤ) (m : ℤ → ℤ → ℤ) (cx cy : ℤ) (dirs : List ℕ) :
    List (ℤ × ℤ) :=
  dirs.filterMap (fun d =>
    let nx := cx + dxA d * 2
    let ny := cy + dyA d * 2
    if isUnvisited w h m nx ny then some (nx, ny) else none)

/-- One iteration of the DFS loop: look at the stack top, collect the
unvisited distance-2 neighbors in shuffled direction order, carve to the
first one and push it, or pop. -/
def mazeStep (w h : ℤ) (s : IState) : IState :=
  match s.stack with
  | [] => s
  | (cx, cy) :: rest =>
    let dg := getRandomDirections s.g
    let neighbors := nbrCells w h s.maze cx cy dg.1
    match neighbors with
    | [] => { s with stack := rest, g := dg.2 }
    | (nx, ny) :: _ =>
      let wx := cx + Int.tdiv (nx - cx) 2
      let wy := cy + Int.tdiv (ny - cy) 2
      { maze := Grid.upd (Grid.upd s.maze wy wx 0) ny nx 0,
        stack := (nx, ny) :: s.stack,
        g := dg.2,
        vis := s.vis ++ [(nx, ny)],
        edges := s.edges ++ [((cx, cy), (nx, ny))] }

/-- The `while (!stack.empty())` loop, with fuel. -/
def run (w h : ℤ) : ℕ → IState → IState
  | 0, s => s
  | n + 1, s => if s.stack = [] then s else run w h n (mazeStep w h s)

/-- The state after the constructor (grid all walls) and the loop prologue:
`maze[1][1] = 0`, stack `[(1,1)]`. -/
def initState (g : RNG.Gen) : IState :=
  { maze := Grid.upd (fun _ _ => 1) 1 1 0,
    stack := [(1, 1)],
    g := g,
    vis := [(1, 1)],
    edges := [] }

/-- Enough fuel for any run: each iteration pops or converts at least one
in-grid wall cell to passage (proved below). -/
def dfsFuel (w h : ℤ) : ℕ := (2 * w * h + 2).toNat

/-- The loop of `DepthFirstMazeGenerator::generateMaze`, instrumented. -/
def generateMazeAux (w h : ℤ) (g : RNG.Gen) : IState :=
  run w h (dfsFuel w h) (initState g)

/-- `DepthFirstMazeGenerator::generateMaze`: run the DFS loop, then mark
the entrance `maze[1][0] = 2` and the exit `maze[height-2][width-1] = 2`. -/
def generateMaze (w h : ℤ) (g : RNG.Gen) : ℤ → ℤ → ℤ :=
  Grid.upd (Grid.upd (generateMazeAux w h g).maze 1 0 2) (h - 2) (w - 1) 2

/-- The passage cells (codes 0 and 2) of a `w × h` grid. -/
def passageFinset (w h : ℤ) (m : ℤ → ℤ → ℤ) : Finset (ℤ × ℤ) :=
  (Finset.Icc 0 (w - 1) ×ˢ Finset.Icc 0 (h - 1)).filter
    (fun c => m c.2 c.1 = 0 ∨ m c.2 c.1 = 2)

/-- Unit (4-neighbor) adjacency of grid cells. -/
def unitAdj (c d : ℤ × ℤ) : Prop :=
  (c.1 - d.1).natAbs + (c.2 - d.2).natAbs = 1

instance (c d : ℤ × ℤ) : Decidable (unitAdj c d) := by
  unfold unitAdj; infer_instance

/-- The graph whose vertices are the passage cells of a grid and whose
edges join unit-adjacent passage cells. -/
def mazeGraph (w h : ℤ) (m : ℤ → ℤ → ℤ) :
    SimpleGraph {c : ℤ × ℤ // c ∈ passageFinset w h m} where
  Adj a b := unitAdj a.1 b.1
  symm := by
    intro a b hab
    unfold unitAdj at hab ⊢
    omega
  loopless := by
    intro a ha
    unfold unitAdj at ha
    omega

instance (w h : ℤ) (m : ℤ → ℤ → ℤ) : DecidableRel (mazeGraph w h m).Adj :=
  fun a b => by unfold mazeGraph; infer_instance

/-- An interior cell with both coordinates odd — the cells the DFS visits. -/
def oddCell (w h : ℤ) (c : ℤ × ℤ) : Prop :=
  c.1 % 2 = 1 ∧ c.2 % 2 = 1 ∧ 1 ≤ c.1 ∧ c.1 ≤ w - 2 ∧ 1 ≤ c.2 ∧ c.2 ≤ h - 2

/-- Distance-2 axis adjacency (the DFS carve step). -/
def adj2 (p c : ℤ × ℤ) : Prop :=
  (p.1 = c.1 ∧ (p.2 - c.2).natAbs = 2) ∨ (p.2 = c.2 ∧ (p.1 - c.1).natAbs = 2)

/-- The ghost logs describe a tree grown by attaching fresh leaves: edge
`i` connects the `(i+1)`-st visited cell to an earlier visited cell at
distance two. -/
def EdgesAligned (V : List (ℤ × ℤ)) (E : List ((ℤ × ℤ) × (ℤ × ℤ))) : Prop :=
  E.length + 1 = V.length ∧
  ∀ i, i < E.length →
    (E.getD i ((0, 0), (0, 0))).2 = V.getD (i + 1) (0, 0) ∧
    (E.getD i ((0, 0), (0, 0))).1 ∈ V.take (i + 1) ∧
    adj2 (E.getD i ((0, 0), (0, 0))).1 (E.getD i ((0, 0), (0, 0))).2

/-- The loop invariant of the DFS. -/
structure Inv (w h : ℤ) (s : IState) : Prop where
  vis_head : s.vis.head? = some (1, 1)
  vis_box : ∀ c ∈ s.vis, oddCell w h c
  vis_nodup : s.vis.Nodup
  maze_char : ∀ x y : ℤ,
    s.maze y x = if (x, y) ∈ s.vis ∨ (x, y) ∈ mids s.edges then 0 else 1
  aligned : EdgesAligned s.vis s.edges
  stack_sub : ∀ c ∈ s.stack, c ∈ s.vis
  stack_nodup : s.stack.Nodup
  closed : ∀ c ∈ s.vis, c ∉ s.stack → ∀ d ∈ ([0, 1, 2, 3] : List ℕ),
    ¬ isUnvisited w h s.maze (c.1 + dxA d * 2) (c.2 + dyA d * 2)

instance (w h : ℤ) : DecidablePred (oddCell w h) := fun c => by
  unfold oddCell; infer_instance

/-- The odd interior cells of the grid, as a finite set. -/
def oddFinset (w h : ℤ) : Finset (ℤ × ℤ) :=
  (Finset.Icc 0 (w - 1) ×ˢ Finset.Icc 0 (h - 1)).filter (fun c => oddCell w h c)

/-- Termination measure: stack size plus twice the number of odd cells not
yet visited. -/
def dfsMeasure (w h : ℤ) (s : IState) : ℕ :=
  s.stack.length + 2 * ((oddFinset w h).card - s.vis.length)

/-- First-occurrence index of an element, with the equality test induced by
decidable equality. -/
def idxOf {α : Type} [DecidableEq α] (l : List α) (a : α) : ℕ :=
  List.indexOf a l

/-- Discovery rank of a grid cell: the entrance and exit markers come last,
a visited cell is ranked by twice its discovery index, a carved wall cell by
one more than twice its edge index. -/
def rankFun (w h : ℤ) (s : IState) (c : ℤ × ℤ) : ℕ :=
  if c = (0, 1) then 2 * s.vis.length
  else if c = (w - 1, h - 2) then 2 * s.vis.length + 1
  else if c.1 % 2 = 1 ∧ c.2 % 2 = 1 then 2 * idxOf s.vis c
  else 2 * idxOf (mids s.edges) c + 1

/-- Parent of a passage cell in the carved structure: markers hang off the
adjacent corner cells, a visited cell's parent is the wall cell of the edge
that discovered it, a wall cell's parent is its edge's first endpoint. -/
def parFun (w h : ℤ) (s : IState) (c : ℤ × ℤ) : ℤ × ℤ :=
  if c = (0, 1) then (1, 1)
  else if c = (w - 1, h - 2) then (w - 2, h - 2)
  else if c.1 % 2 = 1 ∧ c.2 % 2 = 1 then
    midpt (s.edges.getD (idxOf s.vis c - 1) ((0, 0), (0, 0)))
  else (s.edges.getD (idxOf (mids s.edges) c) ((0, 0), (0, 0))).1

end DFS

namespace RNG

theorem uniformSample_mem (g : Gen) {lo hi : ℤ} (h : lo ≤ hi) :
    lo ≤ (uniformSample g lo hi).1 ∧ (uniformSample g lo hi).1 ≤ hi := by
  have h1 : 0 ≤ (g.head : ℤ) % (hi - lo + 1) := Int.emod_nonneg _ (by omega)
  have h2 : (g.head : ℤ) % (hi - lo + 1) < hi - lo + 1 :=
    Int.emod_lt_of_pos _ (by omega)
  constructor
  · simp only [uniformSample]; omega
  · simp only [uniformSample]; omega

theorem tmod_two_eq_zero_iff (a : ℤ) : Int.tmod a 2 = 0 ↔ a % 2 = 0 := by
  rw [← Int.dvd_iff_tmod_eq_zero]
  omega

theorem tmod_two_eq_one_iff {a : ℤ} (ha : 0 ≤ a) :
    Int.tmod a 2 = 1 ↔ a % 2 = 1 := by
  rw [Int.tmod_eq_emod ha (by norm_num)]

/-- C7: `randomInt(min, max)` raises an invalid-argument failure if and only
if `min > max`; whenever `min ≤ max` it returns a value `v` with
`min ≤ v ≤ max`. -/
theorem randomInt_contract (g : Gen) (min max : ℤ) :
    ((∃ e, randomInt g min max = Except.error e) ↔ min > max) ∧
    (min ≤ max →
      ∃ v g', randomInt g min max = Except.ok (v, g') ∧ min ≤ v ∧ v ≤ max) := by
  constructor
  · constructor
    · intro ⟨e, he⟩
      by_contra hle
      rw [randomInt, if_neg hle] at he
      exact Except.noConfusion he
    · intro hgt
      exact ⟨"min cannot be greater than max", by rw [randomInt, if_pos hgt]⟩
  · intro hle
    obtain ⟨h1, h2⟩ := uniformSample_mem g hle
    refine ⟨(uniformSample g min max).1, (uniformSample g min max).2, ?_, h1, h2⟩
    simp [randomInt, not_lt.mpr hle]

/-- Witness for C7 at concrete inputs. -/
theorem randomInt_contract_witness :
    (3 : ℤ) ≤ 7 ∧
    (∃ v g', randomInt zeroGen 3 7 = Except.ok (v, g') ∧ 3 ≤ v ∧ v ≤ 7) :=
  ⟨by decide, (randomInt_contract zeroGen 3 7).2 (by decide)⟩

/-- C8 counterexample: at `min = max = -3` the C++ parity test
`min % 2 == 1` is false (truncated `%` gives `-1`), so `randomEven` does
not adjust the bounds: it returns `-3`, an odd value, where the claim's
adjustment to the nearest even values would give adjusted `min = -2 >
adjusted max = -4` and hence the result `-2`. -/
theorem randomEven_negative_counterexample :
    (randomEven zeroGen (-3) (-3)).1 = -3 ∧
    (randomEvenSpec zeroGen (-3) (-3)).1 = -2 ∧
    (randomEven zeroGen (-3) (-3)).1 % 2 = 1 := by
  refine ⟨by decide, by decide, by decide⟩

theorem tmod_two_negSucc (n : ℕ) :
    Int.tmod (Int.negSucc n) 2 = -(((n + 1) % 2 : ℕ) : ℤ) := rfl

theorem tmod_two_ne_one_of_neg {a : ℤ} (ha : a < 0) : Int.tmod a 2 ≠ 1 := by
  match a, ha with
  | Int.negSucc n, _ =>
    rw [tmod_two_negSucc]
    have := Nat.mod_two_eq_zero_or_one (n + 1)
    omega

theorem randomOdd_props (g : Gen) (min max : ℤ) :
    ((if min % 2 = 1 then min else min + 1) ≤ (if max % 2 = 1 then max else max - 1) →
        (randomOdd g min max).1 % 2 = 1 ∧
        (if min % 2 = 1 then min else min + 1) ≤ (randomOdd g min max).1 ∧
        (randomOdd g min max).1 ≤ (if max % 2 = 1 then max else max - 1)) ∧
    ((if max % 2 = 1 then max else max - 1) < (if min % 2 = 1 then min else min + 1) →
        randomOdd g min max = ((if min % 2 = 1 then min else min + 1), g)) := by
  have hm2 := Int.emod_two_eq min
  have hM2 := Int.emod_two_eq max
  have hmin1 : (if Int.tmod min 2 = 0 then min + 1 else min)
      = (if min % 2 = 1 then min else min + 1) := by
    rcases hm2 with h | h
    · rw [if_pos ((tmod_two_eq_zero_iff min).2 h), if_neg (by omega)]
    · rw [if_neg (fun hc => by have := (tmod_two_eq_zero_iff min).1 hc; omega), if_pos h]
  have hmax1 : (if Int.tmod max 2 = 0 then max - 1 else max)
      = (if max % 2 = 1 then max else max - 1) := by
    rcases hM2 with h | h
    · rw [if_pos ((tmod_two_eq_zero_iff max).2 h), if_neg (by omega)]
    · rw [if_neg (fun hc => by have := (tmod_two_eq_zero_iff max).1 hc; omega), if_pos h]
  have haminodd : (if min % 2 = 1 then min else min + 1) % 2 = 1 := by
    split <;> omega
  have hamaxodd : (if max % 2 = 1 then max else max - 1) % 2 = 1 := by
    split <;> omega
  simp only [randomOdd, hmin1, hmax1]
  set amin := (if min % 2 = 1 then min else min + 1)
  set amax := (if max % 2 = 1 then max else max - 1)
  by_cases hord : amin > amax
  · rw [if_pos hord]
    exact ⟨fun hc => absurd hc (by omega), fun _ => rfl⟩
  · rw [if_neg hord]
    refine ⟨fun _ => ?_, fun hc => absurd hc (by omega)⟩
    have htd : Int.tdiv (amax - amin) 2 = (amax - amin) / 2 :=
      Int.tdiv_eq_ediv (by omega) (by norm_num)
    obtain ⟨hs1, hs2⟩ :=
      @uniformSample_mem g 0 (Int.tdiv (amax - amin) 2 + 1 - 1) (by rw [htd]; omega)
    refine ⟨by omega, by omega, by omega⟩

theorem randomEven_props (g : Gen) (min max : ℤ) (hmin : 0 ≤ min) :
    ((if min % 2 = 0 then min else min + 1) ≤ (if max % 2 = 0 then max else max - 1) →
        (randomEven g min max).1 % 2 = 0 ∧
        (if min % 2 = 0 then min else min + 1) ≤ (randomEven g min max).1 ∧
        (randomEven g min max).1 ≤ (if max % 2 = 0 then max else max - 1)) ∧
    ((if max % 2 = 0 then max else max - 1) < (if min % 2 = 0 then min else min + 1) →
        randomEven g min max = ((if min % 2 = 0 then min else min + 1), g)) := by
  have hm2 := Int.emod_two_eq min
  have hM2 := Int.emod_two_eq max
  have hmin1 : (if Int.tmod min 2 = 1 then min + 1 else min)
      = (if min % 2 = 0 then min else min + 1) := by
    rcases hm2 with h | h
    · rw [if_neg (fun hc => by have := (tmod_two_eq_one_iff hmin).1 hc; omega), if_pos h]
    · rw [if_pos ((tmod_two_eq_one_iff hmin).2 h), if_neg (by omega)]
  have hbminev : (if min % 2 = 0 then min else min + 1) % 2 = 0 := by
    split <;> omega
  by_cases hmax : 0 ≤ max
  · have hmax1 : (if Int.tmod max 2 = 1 then max - 1 else max)
        = (if max % 2 = 0 then max else max - 1) := by
      rcases hM2 with h | h
      · rw [if_neg (fun hc => by have := (tmod_two_eq_one_iff hmax).1 hc; omega), if_pos h]
      · rw [if_pos ((tmod_two_eq_one_iff hmax).2 h), if_neg (by omega)]
    have hbmaxev : (if max % 2 = 0 then max else max - 1) % 2 = 0 := by
      split <;> omega
    simp only [randomEven, hmin1, hmax1]
    set bmin := (if min % 2 = 0 then min else min + 1)
    set bmax := (if max % 2 = 0 then max else max - 1)
    by_cases hord : bmin > bmax
    · rw [if_pos hord]
      exact ⟨fun hc => absurd hc (by omega), fun _ => rfl⟩
    · rw [if_neg hord]
      refine ⟨fun _ => ?_, fun hc => absurd hc (by omega)⟩
      have htd : Int.tdiv (bmax - bmin) 2 = (bmax - bmin) / 2 :=
        Int.tdiv_eq_ediv (by omega) (by norm_num)
      obtain ⟨hs1, hs2⟩ :=
        @uniformSample_mem g 0 (Int.tdiv (bmax - bmin) 2 + 1 - 1) (by rw [htd]; omega)
      refine ⟨by omega, by omega, by omega⟩
  · -- `max` negative: both the code's branch test and the spec's adjusted
    -- range are degenerate, and the code returns the adjusted `min`.
    have hne : Int.tmod max 2 ≠ 1 := tmod_two_ne_one_of_neg (by omega)
    simp only [randomEven, hmin1, if_neg hne]
    set bmin := (if min % 2 = 0 then min else min + 1) with hbmin
    have hb0 : 0 ≤ bmin := by rw [hbmin]; split <;> omega
    rw [if_pos (show bmin > max by omega)]
    constructor
    · intro hc
      exfalso
      rcases hM2 with h | h
      · rw [if_pos h] at hc; omega
      · rw [if_neg (by omega)] at hc; omega
    · intro _
      rfl

/-- C8 (amended): `randomOdd` adjusts its bounds to the nearest odd values
and, on a nonempty adjusted range, returns an odd value inside it, else the
adjusted `min` without sampling the generator — for all integer inputs;
`randomEven` satisfies the corresponding statement provided `0 ≤ min` (for
negative odd `min` the C++ test `min % 2 == 1` fails to adjust, see the
counterexample). -/
theorem randomOdd_randomEven_contract (g : Gen) (min max : ℤ) :
    (((if min % 2 = 1 then min else min + 1) ≤ (if max % 2 = 1 then max else max - 1) →
        (randomOdd g min max).1 % 2 = 1 ∧
        (if min % 2 = 1 then min else min + 1) ≤ (randomOdd g min max).1 ∧
        (randomOdd g min max).1 ≤ (if max % 2 = 1 then max else max - 1)) ∧
     ((if max % 2 = 1 then max else max - 1) < (if min % 2 = 1 then min else min + 1) →
        randomOdd g min max = ((if min % 2 = 1 then min else min + 1), g))) ∧
    (0 ≤ min →
     ((if min % 2 = 0 then min else min + 1) ≤ (if max % 2 = 0 then max else max - 1) →
        (randomEven g min max).1 % 2 = 0 ∧
        (if min % 2 = 0 then min else min + 1) ≤ (randomEven g min max).1 ∧
        (randomEven g min max).1 ≤ (if max % 2 = 0 then max else max - 1)) ∧
     ((if max % 2 = 0 then max else max - 1) < (if min % 2 = 0 then min else min + 1) →
        randomEven g min max = ((if min % 2 = 0 then min else min + 1), g))) :=
  ⟨randomOdd_props g min max, fun hmin => randomEven_props g min max hmin⟩

theorem randomOdd_bounds (g : Gen) {min max : ℤ} (h : min ≤ max) :
    min ≤ (randomOdd g min max).1 ∧ (randomOdd g min max).1 ≤ max + 1 := by
  have hp := randomOdd_props g min max
  have hmm : min ≤ (if min % 2 = 1 then min else min + 1) ∧
      (if min % 2 = 1 then min else min + 1) ≤ min + 1 := by split <;> omega
  have hMM : max - 1 ≤ (if max % 2 = 1 then max else max - 1) ∧
      (if max % 2 = 1 then max else max - 1) ≤ max := by split <;> omega
  by_cases hord : (if min % 2 = 1 then min else min + 1) ≤
      (if max % 2 = 1 then max else max - 1)
  · obtain ⟨_, h1, h2⟩ := hp.1 hord
    omega
  · rw [hp.2 (by omega)]
    exact ⟨by omega, by omega⟩

theorem randomEven_bounds (g : Gen) {min max : ℤ} (h0 : 0 ≤ min)
    (h : min + 2 ≤ max) :
    min ≤ (randomEven g min max).1 ∧ (randomEven g min max).1 ≤ max := by
  have hp := randomEven_props g min max h0
  have hmm : min ≤ (if min % 2 = 0 then min else min + 1) ∧
      (if min % 2 = 0 then min else min + 1) ≤ min + 1 := by split <;> omega
  have hMM : max - 1 ≤ (if max % 2 = 0 then max else max - 1) ∧
      (if max % 2 = 0 then max else max - 1) ≤ max := by split <;> omega
  have hord : (if min % 2 = 0 then min else min + 1) ≤
      (if max % 2 = 0 then max else max - 1) := by
    split <;> split <;> omega
  obtain ⟨_, h1, h2⟩ := hp.1 hord
  omega

/-- Witness for C8 (amended) at concrete inputs: `randomOdd` on `[2, 9]`
(adjusted to `[3, 9]`) and `randomEven` on `[2, 9]` (adjusted to `[2, 8]`)
with the all-zeros stream. -/
theorem randomOdd_randomEven_contract_witness :
    ((3 : ℤ) ≤ 9 ∧
      (randomOdd zeroGen 2 9).1 % 2 = 1 ∧
      (3 : ℤ) ≤ (randomOdd zeroGen 2 9).1 ∧ (randomOdd zeroGen 2 9).1 ≤ 9) ∧
    ((2 : ℤ) ≤ 8 ∧
      (randomEven zeroGen 2 9).1 % 2 = 0 ∧
      (2 : ℤ) ≤ (randomEven zeroGen 2 9).1 ∧ (randomEven zeroGen 2 9).1 ≤ 8) := by
  have h := randomOdd_randomEven_contract zeroGen 2 9
  have ho := h.1.1 (by decide)
  have he := (h.2 (by decide)).1 (by decide)
  refine ⟨⟨by decide, ?_⟩, by decide, ?_⟩
  · simpa using ho
  · simpa using he

end RNG

namespace Grid

theorem upd_same (m : ℤ → ℤ → ℤ) (y x v : ℤ) : upd m y x v y x = v := by
  simp [upd]

theorem upd_ne (m : ℤ → ℤ → ℤ) (y x v y' x' : ℤ) (h : ¬(y' = y ∧ x' = x)) :
    upd m y x v y' x' = m y' x' := by
  simp [upd, h]

end Grid

namespace RecDiv

/-- C5: for a chamber with `width ≥ 3` and `height ≥ 3` and a division
line strictly inside it, `Rectangle::split` returns exactly two
sub-chambers whose cells, together with the one-cell-wide dividing line,
partition the chamber's cells with no overlap and no gap. -/
theorem split_partition (r : Rectangle) (d : Division)
    (hw : 3 ≤ r.width) (hh : 3 ≤ r.height)
    (hline : match d with
      | .horizontal line _ _ _ => r.y + 1 ≤ line ∧ line ≤ r.y + r.height - 2
      | .vertical line _ _ _ => r.x + 1 ≤ line ∧ line ≤ r.x + r.width - 2) :
    ∃ s1 s2, r.split d = [s1, s2] ∧
      (∀ c, c ∈ r.cells ↔ c ∈ s1.cells ∨ c ∈ lineCells r d ∨ c ∈ s2.cells) ∧
      Disjoint s1.cells (lineCells r d) ∧
      Disjoint s1.cells s2.cells ∧
      Disjoint (lineCells r d) s2.cells := by
  cases d with
  | horizontal line px sc wl =>
    obtain ⟨hl1, hl2⟩ := hline
    refine ⟨_, _, rfl, ?_, ?_, ?_, ?_⟩
    · intro c
      simp only [Rectangle.cells, lineCells, Finset.mem_product, Finset.mem_Icc,
        Finset.mem_singleton]
      omega
    · rw [Finset.disjoint_left]
      intro c hc1 hc2
      simp only [Rectangle.cells, lineCells, Finset.mem_product, Finset.mem_Icc,
        Finset.mem_singleton] at hc1 hc2
      omega
    · rw [Finset.disjoint_left]
      intro c hc1 hc2
      simp only [Rectangle.cells, Finset.mem_product, Finset.mem_Icc] at hc1 hc2
      omega
    · rw [Finset.disjoint_left]
      intro c hc1 hc2
      simp only [Rectangle.cells, lineCells, Finset.mem_product, Finset.mem_Icc,
        Finset.mem_singleton] at hc1 hc2
      omega
  | vertical line py sc wl =>
    obtain ⟨hl1, hl2⟩ := hline
    refine ⟨_, _, rfl, ?_, ?_, ?_, ?_⟩
    · intro c
      simp only [Rectangle.cells, lineCells, Finset.mem_product, Finset.mem_Icc,
        Finset.mem_singleton]
      omega
    · rw [Finset.disjoint_left]
      intro c hc1 hc2
      simp only [Rectangle.cells, lineCells, Finset.mem_product, Finset.mem_Icc,
        Finset.mem_singleton] at hc1 hc2
      omega
    · rw [Finset.disjoint_left]
      intro c hc1 hc2
      simp only [Rectangle.cells, Finset.mem_product, Finset.mem_Icc] at hc1 hc2
      omega
    · rw [Finset.disjoint_left]
      intro c hc1 hc2
      simp only [Rectangle.cells, lineCells, Finset.mem_product, Finset.mem_Icc,
        Finset.mem_singleton] at hc1 hc2
      omega

/-- Witness for C5: a 5×5 chamber at `(1, 1)` split horizontally at line 2. -/
theorem split_partition_witness :
    (3 : ℤ) ≤ 5 ∧
    ∃ s1 s2,
      (Rectangle.mk 1 1 5 5).split (Division.horizontal 2 2 1 5) = [s1, s2] ∧
      (∀ c, c ∈ (Rectangle.mk 1 1 5 5).cells ↔
        c ∈ s1.cells ∨
        c ∈ lineCells (Rectangle.mk 1 1 5 5) (Division.horizontal 2 2 1 5) ∨
        c ∈ s2.cells) ∧
      Disjoint s1.cells (lineCells (Rectangle.mk 1 1 5 5) (Division.horizontal 2 2 1 5)) ∧
      Disjoint s1.cells s2.cells ∧
      Disjoint (lineCells (Rectangle.mk 1 1 5 5) (Division.horizontal 2 2 1 5)) s2.cells :=
  ⟨by decide,
    split_partition (Rectangle.mk 1 1 5 5) (Division.horizontal 2 2 1 5)
      (by decide) (by decide) (by exact ⟨by decide, by decide⟩)⟩

/-- C3 counterexample: running the generator on a 5×5 grid (any seed makes
the same first division, because `randomOdd(2,2)` returns `3` from its
degenerate branch without sampling), the first chamber `(1,1,3,3)` gets
division line `3 = chamber_start + extent - 1`, outside the claimed range
`chamber_start+1 .. chamber_start+extent-2 = [2,2]`, and the resulting
sub-chamber `(4,1,0,3)` passed to `subdivide` has width `0`, not positive. -/
theorem subdivide_chamber_counterexample :
    (Rectangle.mk 4 1 0 3) ∈ (generateMaze 5 5 RNG.zeroGen).chamberLog ∧
    ¬ 0 < (Rectangle.mk 4 1 0 3).width ∧
    (Rectangle.mk 1 1 3 3, Division.vertical 3 2 1 3) ∈
      (generateMaze 5 5 RNG.zeroGen).divLog ∧
    ¬ ((Rectangle.mk 1 1 3 3).x + 1 ≤ (Division.vertical 3 2 1 3).getLine ∧
       (Division.vertical 3 2 1 3).getLine ≤
         (Rectangle.mk 1 1 3 3).x + (Rectangle.mk 1 1 3 3).width - 2) := by
  refine ⟨by decide, by decide, by decide, by decide⟩

theorem createDivision_good (W H : ℤ) (r : Rectangle) (g : RNG.Gen)
    (hq : QChamber W H r) (hcan : canSubdivide r) :
    DivGood W H (r, (createDivision r g).1) := by
  obtain ⟨⟨hx, hy, hxw, hyh⟩, hw0, hh0⟩ := hq
  obtain ⟨hw3, hh3⟩ := hcan
  have hq' : QChamber W H r := ⟨⟨hx, hy, hxw, hyh⟩, hw0, hh0⟩
  simp only [createDivision]
  cases horg : (chooseDivisionOrientation r g).1 with
  | horizontal =>
    dsimp only
    obtain ⟨hl1, hl2⟩ :=
      RNG.randomOdd_bounds (chooseDivisionOrientation r g).2
        (show r.y + 1 ≤ r.y + r.height - 2 by omega)
    obtain ⟨hp1, hp2⟩ :=
      RNG.randomEven_bounds
        (RNG.randomOdd (chooseDivisionOrientation r g).2
          (r.y + 1) (r.y + r.height - 2)).2
        (show (0:ℤ) ≤ r.x by omega)
        (show r.x + 2 ≤ r.x + r.width - 1 by omega)
    exact ⟨hq', hw3, hh3, rfl, rfl, hl1, by dsimp only; omega, hp1, hp2⟩
  | vertical =>
    dsimp only
    obtain ⟨hl1, hl2⟩ :=
      RNG.randomOdd_bounds (chooseDivisionOrientation r g).2
        (show r.x + 1 ≤ r.x + r.width - 2 by omega)
    obtain ⟨hp1, hp2⟩ :=
      RNG.randomEven_bounds
        (RNG.randomOdd (chooseDivisionOrientation r g).2
          (r.x + 1) (r.x + r.width - 2)).2
        (show (0:ℤ) ≤ r.y by omega)
        (show r.y + 2 ≤ r.y + r.height - 1 by omega)
    exact ⟨hq', hw3, hh3, rfl, rfl, hl1, by dsimp only; omega, hp1, hp2⟩

theorem wallPoints_inB (W H : ℤ) (p : Rectangle × Division)
    (hd : DivGood W H p) : ∀ q ∈ p.2.getWallPoints, InB W H q := by
  obtain ⟨⟨⟨hx, hy, hxw, hyh⟩, hw0, hh0⟩, hw3, hh3, hdiv⟩ := hd
  intro q hq
  cases hd2 : p.2 with
  | horizontal line px sc wl =>
    rw [hd2] at hq hdiv
    simp only [Division.getWallPoints, List.mem_map, List.mem_range] at hq
    obtain ⟨i, hi, rfl⟩ := hq
    obtain ⟨hsc, hwl, hl1, hl2, _, _⟩ := hdiv
    simp only [InB]
    omega
  | vertical line py sc wl =>
    rw [hd2] at hq hdiv
    simp only [Division.getWallPoints, List.mem_map, List.mem_range] at hq
    obtain ⟨i, hi, rfl⟩ := hq
    obtain ⟨hsc, hwl, hl1, hl2, _, _⟩ := hdiv
    simp only [InB]
    omega

theorem wallPoints_interior (W H : ℤ) (p : Rectangle × Division)
    (hd : DivGood W H p) : ∀ q ∈ p.2.getWallPoints,
      1 ≤ q.x ∧ q.x ≤ W - 2 ∧ 1 ≤ q.y ∧ q.y ≤ H - 2 := by
  obtain ⟨⟨⟨hx, hy, hxw, hyh⟩, hw0, hh0⟩, hw3, hh3, hdiv⟩ := hd
  intro q hq
  cases hd2 : p.2 with
  | horizontal line px sc wl =>
    rw [hd2] at hq hdiv
    simp only [Division.getWallPoints, List.mem_map, List.mem_range] at hq
    obtain ⟨i, hi, rfl⟩ := hq
    obtain ⟨hsc, hwl, hl1, hl2, _, _⟩ := hdiv
    dsimp only
    omega
  | vertical line py sc wl =>
    rw [hd2] at hq hdiv
    simp only [Division.getWallPoints, List.mem_map, List.mem_range] at hq
    obtain ⟨i, hi, rfl⟩ := hq
    obtain ⟨hsc, hwl, hl1, hl2, _, _⟩ := hdiv
    dsimp only
    omega

theorem passagePoint_inB (W H : ℤ) (p : Rectangle × Division)
    (hd : DivGood W H p) : InB W H p.2.getPassagePoint := by
  obtain ⟨⟨⟨hx, hy, hxw, hyh⟩, hw0, hh0⟩, hw3, hh3, hdiv⟩ := hd
  cases hd2 : p.2 with
  | horizontal line px sc wl =>
    rw [hd2] at hdiv
    obtain ⟨hsc, hwl, hl1, hl2, hp1, hp2⟩ := hdiv
    simp only [InB, Division.getPassagePoint]
    omega
  | vertical line py sc wl =>
    rw [hd2] at hdiv
    obtain ⟨hsc, hwl, hl1, hl2, hp1, hp2⟩ := hdiv
    simp only [InB, Division.getPassagePoint]
    omega

theorem split_sub_q (W H : ℤ) (p : Rectangle × Division)
    (hd : DivGood W H p) : ∀ c ∈ p.1.split p.2, QChamber W H c := by
  obtain ⟨⟨⟨hx, hy, hxw, hyh⟩, hw0, hh0⟩, hw3, hh3, hdiv⟩ := hd
  intro c hc
  cases hd2 : p.2 with
  | horizontal line px sc wl =>
    rw [hd2] at hc hdiv
    obtain ⟨hsc, hwl, hl1, hl2, _, _⟩ := hdiv
    simp only [Rectangle.split, List.mem_cons, List.mem_singleton] at hc
    rcases hc with rfl | rfl | hc
    · simp only [QChamber, GoodChamber]; omega
    · simp only [QChamber, GoodChamber]; omega
    · exact absurd hc (List.not_mem_nil c)
  | vertical line py sc wl =>
    rw [hd2] at hc hdiv
    obtain ⟨hsc, hwl, hl1, hl2, _, _⟩ := hdiv
    simp only [Rectangle.split, List.mem_cons, List.mem_singleton] at hc
    rcases hc with rfl | rfl | hc
    · simp only [QChamber, GoodChamber]; omega
    · simp only [QChamber, GoodChamber]; omega
    · exact absurd hc (List.not_mem_nil c)

theorem drawWall_spec (W H : ℤ) (st : GenState) (d : Division) :
    (drawWall W H st d).chamberLog = st.chamberLog ∧
    (drawWall W H st d).divLog = st.divLog ∧
    (drawWall W H st d).g = st.g ∧
    ∃ t, (drawWall W H st d).writeLog = st.writeLog ++ t ∧
      ∀ q ∈ t, q ∈ d.getWallPoints := by
  unfold drawWall
  have main : ∀ (l : List Point) (s : GenState),
      (l.foldl
        (fun s p =>
          if 0 ≤ p.x ∧ p.x < H ∧ 0 ≤ p.y ∧ p.y < W then
            { s with maze := Grid.upd s.maze p.y p.x WALL,
                     writeLog := s.writeLog ++ [p] }
          else s) s).chamberLog = s.chamberLog ∧
      (l.foldl
        (fun s p =>
          if 0 ≤ p.x ∧ p.x < H ∧ 0 ≤ p.y ∧ p.y < W then
            { s with maze := Grid.upd s.maze p.y p.x WALL,
                     writeLog := s.writeLog ++ [p] }
          else s) s).divLog = s.divLog ∧
      (l.foldl
        (fun s p =>
          if 0 ≤ p.x ∧ p.x < H ∧ 0 ≤ p.y ∧ p.y < W then
            { s with maze := Grid.upd s.maze p.y p.x WALL,
                     writeLog := s.writeLog ++ [p] }
          else s) s).g = s.g ∧
      ∃ t, (l.foldl
        (fun s p =>
          if 0 ≤ p.x ∧ p.x < H ∧ 0 ≤ p.y ∧ p.y < W then
            { s with maze := Grid.upd s.maze p.y p.x WALL,
                     writeLog := s.writeLog ++ [p] }
          else s) s).writeLog = s.writeLog ++ t ∧ ∀ q ∈ t, q ∈ l := by
    intro l
    induction l with
    | nil => exact fun s => ⟨rfl, rfl, rfl, [], by simp⟩
    | cons a l ih =>
      intro s
      simp only [List.foldl_cons]
      by_cases hg : 0 ≤ a.x ∧ a.x < H ∧ 0 ≤ a.y ∧ a.y < W
      · rw [if_pos hg]
        obtain ⟨h1, h2, h3, t, h4, h5⟩ :=
          ih { s with maze := Grid.upd s.maze a.y a.x WALL,
                      writeLog := s.writeLog ++ [a] }
        refine ⟨h1, h2, h3, a :: t, ?_, ?_⟩
        · rw [h4]; simp
        · intro q hq
          rcases List.mem_cons.mp hq with rfl | hq
          · exact List.mem_cons_self _ _
          · exact List.mem_cons_of_mem _ (h5 q hq)
      · rw [if_neg hg]
        obtain ⟨h1, h2, h3, t, h4, h5⟩ := ih s
        exact ⟨h1, h2, h3, t, h4, fun q hq => List.mem_cons_of_mem _ (h5 q hq)⟩
  obtain ⟨h1, h2, h3, t, h4, h5⟩ := main d.getWallPoints st
  exact ⟨h1, h2, h3, t, h4, h5⟩

theorem createPassage_spec (W H : ℤ) (st : GenState) (d : Division) :
    (createPassage W H st d).chamberLog = st.chamberLog ∧
    (createPassage W H st d).divLog = st.divLog ∧
    (createPassage W H st d).g = st.g ∧
    ∃ t, (createPassage W H st d).writeLog = st.writeLog ++ t ∧
      ∀ q ∈ t, q = d.getPassagePoint := by
  unfold createPassage
  by_cases hg : 0 ≤ d.getPassagePoint.x ∧ d.getPassagePoint.x < H ∧
      0 ≤ d.getPassagePoint.y ∧ d.getPassagePoint.y < W
  · rw [if_pos hg]
    exact ⟨rfl, rfl, rfl, [d.getPassagePoint], rfl, by simp⟩
  · rw [if_neg hg]
    exact ⟨rfl, rfl, rfl, [], by simp, by simp⟩

theorem subdivide_inv (W H : ℤ) :
    ∀ (fuel : ℕ) (r : Rectangle) (st : GenState),
      QChamber W H r → RDInv W H st →
      RDInv W H (subdivide W H fuel r st) := by
  intro fuel
  induction fuel with
  | zero =>
    intro r st hq ⟨hc, hd, hw⟩
    refine ⟨?_, hd, hw⟩
    intro r' hr'
    rcases List.mem_append.mp hr' with h | h
    · exact hc r' h
    · rw [List.mem_singleton.mp h]; exact hq
  | succ n ih =>
    intro r st hq hinv
    obtain ⟨hc, hd, hw⟩ := hinv
    by_cases hcan : canSubdivide r
    · have hdg : DivGood W H (r, (createDivision r st.g).1) :=
        createDivision_good W H r st.g hq hcan
      simp only [subdivide, if_pos hcan]
      have hfold : ∀ (l : List Rectangle) (s : GenState),
          (∀ c ∈ l, QChamber W H c) → RDInv W H s →
          RDInv W H (l.foldl (fun s c => subdivide W H n c s) s) := by
        intro l
        induction l with
        | nil => exact fun s _ hs => hs
        | cons a t iht =>
          intro s hl hs
          exact iht _ (fun c hcm => hl c (List.mem_cons_of_mem _ hcm))
            (ih a s (hl a (List.mem_cons_self _ _)) hs)
      apply hfold
      · exact split_sub_q W H (r, (createDivision r st.g).1) hdg
      · -- invariant for the state after logging, drawing and breaching
        set st2 : GenState :=
          { st with chamberLog := st.chamberLog ++ [r],
                    g := (createDivision r st.g).2,
                    divLog := st.divLog ++ [(r, (createDivision r st.g).1)] }
          with hst2
        have hinv2 : RDInv W H st2 := by
          refine ⟨?_, ?_, ?_⟩
          · intro r' hr'
            rcases List.mem_append.mp hr' with h | h
            · exact hc r' h
            · rw [List.mem_singleton.mp h]; exact hq
          · intro p hp
            rcases List.mem_append.mp hp with h | h
            · exact hd p h
            · rw [List.mem_singleton.mp h]; exact hdg
          · exact hw
        obtain ⟨hw1, hw2, hw3, tw, hw4, hw5⟩ :=
          drawWall_spec W H st2 (createDivision r st.g).1
        obtain ⟨hp1, hp2, hp3, tp, hp4, hp5⟩ :=
          createPassage_spec W H (drawWall W H st2 (createDivision r st.g).1)
            (createDivision r st.g).1
        obtain ⟨hc2, hd2, hww2⟩ := hinv2
        refine ⟨?_, ?_, ?_⟩
        · rw [hp1, hw1]; exact hc2
        · rw [hp2, hw2]; exact hd2
        · rw [hp4, hw4]
          intro q hqm
          rcases List.mem_append.mp hqm with hqm | hqm
          · rcases List.mem_append.mp hqm with hqm | hqm
            · exact hww2 q hqm
            · exact wallPoints_inB W H (r, (createDivision r st.g).1) hdg q
                (hw5 q hqm)
          · rw [hp5 q hqm]
            exact passagePoint_inB W H (r, (createDivision r st.g).1) hdg
    · rw [subdivide, if_neg hcan]
      refine ⟨?_, hd, hw⟩
      intro r' hr'
      rcases List.mem_append.mp hr' with h | h
      · exact hc r' h
      · rw [List.mem_singleton.mp h]; exact hq

theorem subdivide_stop (W H : ℤ) (fuel : ℕ) (r : Rectangle) (st : GenState)
    (hcan : ¬ canSubdivide r) :
    subdivide W H fuel r st = { st with chamberLog := st.chamberLog ++ [r] } := by
  cases fuel with
  | zero => rfl
  | succ n => rw [subdivide, if_neg hcan]

theorem normDim_ge_three {w : ℤ} (hw : 2 ≤ w) : 3 ≤ normDim w := by
  unfold normDim
  by_cases h : Int.tmod w 2 = 0
  · rw [if_pos h]; omega
  · rw [if_neg h]
    have h1 : ¬ w % 2 = 0 := fun hc => h ((RNG.tmod_two_eq_zero_iff w).2 hc)
    omega

theorem normDim_le_one {w : ℤ} (hw : w ≤ 1) : normDim w ≤ 1 := by
  unfold normDim
  by_cases h : Int.tmod w 2 = 0
  · rw [if_pos h]
    have h1 : w % 2 = 0 := (RNG.tmod_two_eq_zero_iff w).1 h
    omega
  · rw [if_neg h]; omega

theorem generateMaze_writeLog_eq (w h : ℤ) (g : RNG.Gen) :
    (generateMaze w h g).writeLog =
      (subdivide (normDim w) (normDim h) (normDim w + normDim h).toNat
        ⟨1, 1, normDim w - 2, normDim h - 2⟩
        { maze := initGrid (normDim w) (normDim h), g := g, chamberLog := [],
          divLog := [], writeLog := [] }).writeLog := rfl

theorem generateMaze_chamberLog_eq (w h : ℤ) (g : RNG.Gen) :
    (generateMaze w h g).chamberLog =
      (subdivide (normDim w) (normDim h) (normDim w + normDim h).toNat
        ⟨1, 1, normDim w - 2, normDim h - 2⟩
        { maze := initGrid (normDim w) (normDim h), g := g, chamberLog := [],
          divLog := [], writeLog := [] }).chamberLog := rfl

theorem generateMaze_divLog_eq (w h : ℤ) (g : RNG.Gen) :
    (generateMaze w h g).divLog =
      (subdivide (normDim w) (normDim h) (normDim w + normDim h).toNat
        ⟨1, 1, normDim w - 2, normDim h - 2⟩
        { maze := initGrid (normDim w) (normDim h), g := g, chamberLog := [],
          divLog := [], writeLog := [] }).divLog := rfl

theorem subdivide_log_append (W H : ℤ) :
    ∀ (fuel : ℕ) (r : Rectangle) (st : GenState),
      (∃ tc, (subdivide W H fuel r st).chamberLog = st.chamberLog ++ tc) ∧
      (∃ td, (subdivide W H fuel r st).divLog = st.divLog ++ td) ∧
      r ∈ (subdivide W H fuel r st).chamberLog := by
  intro fuel
  induction fuel with
  | zero =>
    intro r st
    exact ⟨⟨[r], rfl⟩, ⟨[], (List.append_nil _).symm⟩, by simp [subdivide]⟩
  | succ n ih =>
    intro r st
    by_cases hcan : canSubdivide r
    · simp only [subdivide, if_pos hcan]
      have hfold : ∀ (l : List Rectangle) (s : GenState),
          (∃ tc, (l.foldl (fun s c => subdivide W H n c s) s).chamberLog =
            s.chamberLog ++ tc) ∧
          (∃ td, (l.foldl (fun s c => subdivide W H n c s) s).divLog =
            s.divLog ++ td) := by
        intro l
        induction l with
        | nil => exact fun s => ⟨⟨[], (List.append_nil _).symm⟩,
            ⟨[], (List.append_nil _).symm⟩⟩
        | cons a t iht =>
          intro s
          simp only [List.foldl_cons]
          obtain ⟨⟨tc1, hc1⟩, ⟨td1, hd1⟩, _⟩ := ih a s
          obtain ⟨⟨tc2, hc2⟩, ⟨td2, hd2⟩⟩ := iht (subdivide W H n a s)
          exact ⟨⟨tc1 ++ tc2, by rw [hc2, hc1, List.append_assoc]⟩,
            ⟨td1 ++ td2, by rw [hd2, hd1, List.append_assoc]⟩⟩
      set dg := createDivision r st.g with hdg
      set st2 : GenState :=
        { st with chamberLog := st.chamberLog ++ [r], g := dg.2,
                  divLog := st.divLog ++ [(r, dg.1)] } with hst2
      obtain ⟨hw1, hw2, _, _⟩ := drawWall_spec W H st2 dg.1
      obtain ⟨hp1, hp2, _, _⟩ :=
        createPassage_spec W H (drawWall W H st2 dg.1) dg.1
      obtain ⟨⟨tc, hc⟩, ⟨td, hd⟩⟩ :=
        hfold (r.split dg.1) (createPassage W H (drawWall W H st2 dg.1) dg.1)
      refine ⟨⟨[r] ++ tc, ?_⟩, ⟨[(r, dg.1)] ++ td, ?_⟩, ?_⟩
      · rw [hc, hp1, hw1]
        simp [List.append_assoc]
      · rw [hd, hp2, hw2]
        simp [List.append_assoc]
      · rw [hc, hp1, hw1]
        simp
    · rw [subdivide, if_neg hcan]
      exact ⟨⟨[r], rfl⟩, ⟨[], (List.append_nil _).symm⟩, by simp⟩

/-- C4 (amended): `subdivide` stops without drawing anything exactly when
the chamber's width or height is `< 3` (not only when both are); when both
dimensions are `≥ 3` it records exactly one new division for this chamber
and recurses into the two sub-chambers produced by `split`. -/
theorem subdivide_behavior (W H : ℤ) (fuel : ℕ) (r : Rectangle)
    (st : GenState) :
    (¬(3 ≤ r.width ∧ 3 ≤ r.height) →
      subdivide W H (fuel + 1) r st =
        { st with chamberLog := st.chamberLog ++ [r] }) ∧
    ((3 ≤ r.width ∧ 3 ≤ r.height) →
      ∃ d rest,
        (subdivide W H (fuel + 1) r st).divLog = st.divLog ++ (r, d) :: rest ∧
        (∃ s1 s2, r.split d = [s1, s2] ∧
          s1 ∈ (subdivide W H (fuel + 1) r st).chamberLog ∧
          s2 ∈ (subdivide W H (fuel + 1) r st).chamberLog)) := by
  constructor
  · intro hcan
    exact subdivide_stop W H (fuel + 1) r st hcan
  · intro hcan
    have hcan' : canSubdivide r := hcan
    simp only [subdivide, if_pos hcan']
    set dg := createDivision r st.g with hdg
    set st2 : GenState :=
      { st with chamberLog := st.chamberLog ++ [r], g := dg.2,
                divLog := st.divLog ++ [(r, dg.1)] } with hst2
    set st3 := createPassage W H (drawWall W H st2 dg.1) dg.1 with hst3
    obtain ⟨hw1, hw2, _, _⟩ := drawWall_spec W H st2 dg.1
    obtain ⟨hp1, hp2, _, _⟩ := createPassage_spec W H (drawWall W H st2 dg.1) dg.1
    have hst3div : st3.divLog = st.divLog ++ [(r, dg.1)] := by
      rw [hst3, hp2, hw2]
    have hst3ch : st3.chamberLog = st.chamberLog ++ [r] := by
      rw [hst3, hp1, hw1]
    obtain ⟨s1, s2, hsplit⟩ :
        ∃ s1 s2, r.split dg.1 = [s1, s2] := by
      cases dg.1 <;> exact ⟨_, _, rfl⟩
    rw [hsplit]
    simp only [List.foldl_cons, List.foldl_nil]
    obtain ⟨⟨tc1, hc1⟩, ⟨td1, hd1⟩, hm1⟩ := subdivide_log_append W H fuel s1 st3
    obtain ⟨⟨tc2, hc2⟩, ⟨td2, hd2⟩, hm2⟩ :=
      subdivide_log_append W H fuel s2 (subdivide W H fuel s1 st3)
    refine ⟨dg.1, td1 ++ td2, ?_, s1, s2, hsplit, ?_, hm2⟩
    · rw [hd2, hd1, hst3div]
      simp [List.append_assoc]
    · rw [hc2]
      exact List.mem_append_left _ hm1

/-- C3 (amended): in every run of the recursive-division generator on a
grid with `w, h ≥ 2`, every chamber passed to `subdivide` has *nonnegative*
(possibly zero) width and height and lies inside the grid's border frame;
every division spans exactly its chamber on the perpendicular axis
(`startCoord`/`wallLength` equal the chamber's start and extent), and its
line lies in `chamber_start + 1 .. chamber_start + extent - 1` on the
split axis — the line can equal `chamber_start + extent - 1` (the
chamber's last row/column, still inside the grid) when the split axis has
extent 3 and odd start, where `randomOdd` degenerates; and every wall cell
of every division stays in the grid interior (never on the border frame,
hence never outside the grid). -/
theorem generateMaze_chamber_division_invariant (w h : ℤ) (g : RNG.Gen)
    (hw : 2 ≤ w) (hh : 2 ≤ h) :
    (∀ r ∈ (generateMaze w h g).chamberLog,
        0 ≤ r.width ∧ 0 ≤ r.height ∧ 1 ≤ r.x ∧ 1 ≤ r.y ∧
        r.x + r.width ≤ normDim w - 1 ∧ r.y + r.height ≤ normDim h - 1) ∧
    (∀ p ∈ (generateMaze w h g).divLog,
        (match p.2 with
         | Division.horizontal line _ sc wl =>
             sc = p.1.x ∧ wl = p.1.width ∧
             p.1.y + 1 ≤ line ∧ line ≤ p.1.y + p.1.height - 1
         | Division.vertical line _ sc wl =>
             sc = p.1.y ∧ wl = p.1.height ∧
             p.1.x + 1 ≤ line ∧ line ≤ p.1.x + p.1.width - 1)) ∧
    (∀ p ∈ (generateMaze w h g).divLog, ∀ q ∈ p.2.getWallPoints,
        1 ≤ q.x ∧ q.x ≤ normDim w - 2 ∧ 1 ≤ q.y ∧ q.y ≤ normDim h - 2) := by
  have hW := normDim_ge_three hw
  have hH := normDim_ge_three hh
  have hinv :=
    subdivide_inv (normDim w) (normDim h) (normDim w + normDim h).toNat
      ⟨1, 1, normDim w - 2, normDim h - 2⟩
      { maze := initGrid (normDim w) (normDim h), g := g, chamberLog := [],
        divLog := [], writeLog := [] }
      (by simp only [QChamber, GoodChamber]; omega)
      ⟨by simp, by simp, by simp⟩
  obtain ⟨hch, hdv, _⟩ := hinv
  refine ⟨?_, ?_, ?_⟩
  · intro r hr
    rw [generateMaze_chamberLog_eq] at hr
    obtain ⟨⟨h1, h2, h3, h4⟩, h5, h6⟩ := hch r hr
    exact ⟨h5, h6, h1, h2, h3, h4⟩
  · intro p hp
    rw [generateMaze_divLog_eq] at hp
    obtain ⟨_, _, _, hdiv⟩ := hdv p hp
    cases hd2 : p.2 with
    | horizontal line px sc wl =>
      rw [hd2] at hdiv
      exact ⟨hdiv.1, hdiv.2.1, hdiv.2.2.1, hdiv.2.2.2.1⟩
    | vertical line py sc wl =>
      rw [hd2] at hdiv
      exact ⟨hdiv.1, hdiv.2.1, hdiv.2.2.1, hdiv.2.2.2.1⟩
  · intro p hp
    rw [generateMaze_divLog_eq] at hp
    exact wallPoints_interior (normDim w) (normDim h) p (hdv p hp)

/-- C10: for every width and height given to the constructor, every grid
write performed by `drawWall` and `createPassage` during `generateMaze`
targets a row index in `[0, height)` and a column index in `[0, width)` of
the allocated (normalized) `height × width` grid — the bounds guard never
lets an out-of-bounds index pair through to `maze[point.y][point.x]`. -/
theorem generateMaze_writes_in_bounds (w h : ℤ) (g : RNG.Gen) :
    ∀ q ∈ (generateMaze w h g).writeLog,
      0 ≤ q.x ∧ q.x < normDim w ∧ 0 ≤ q.y ∧ q.y < normDim h := by
  by_cases hwh : 2 ≤ w ∧ 2 ≤ h
  · have hW := normDim_ge_three hwh.1
    have hH := normDim_ge_three hwh.2
    have hinv :=
      subdivide_inv (normDim w) (normDim h) (normDim w + normDim h).toNat
        ⟨1, 1, normDim w - 2, normDim h - 2⟩
        { maze := initGrid (normDim w) (normDim h), g := g, chamberLog := [],
          divLog := [], writeLog := [] }
        (by simp only [QChamber, GoodChamber]; omega)
        ⟨by simp, by simp, by simp⟩
    intro q hq
    rw [generateMaze_writeLog_eq] at hq
    exact hinv.2.2 q hq
  · -- a degenerate grid: the initial chamber cannot be subdivided, so no
    -- write is ever attempted.
    intro q hq
    rw [generateMaze_writeLog_eq] at hq
    have hcan : ¬ canSubdivide ⟨1, 1, normDim w - 2, normDim h - 2⟩ := by
      intro ⟨hcw, hch⟩
      rcases not_and_or.mp hwh with hlt | hlt
      · have := normDim_le_one (by omega : w ≤ 1)
        simp only at hcw
        omega
      · have := normDim_le_one (by omega : h ≤ 1)
        simp only at hch
        omega
    rw [subdivide_stop _ _ _ _ _ hcan] at hq
    exact absurd hq (List.not_mem_nil q)

/-- Witness for C3 (amended): the 5×5 run with the all-zeros stream; the
zero-width chamber `(4,1,0,3)` satisfies the amended bounds. -/
theorem generateMaze_chamber_division_invariant_witness :
    ((2 : ℤ) ≤ 5) ∧
    (0 ≤ (Rectangle.mk 4 1 0 3).width ∧ 0 ≤ (Rectangle.mk 4 1 0 3).height ∧
      1 ≤ (Rectangle.mk 4 1 0 3).x ∧ 1 ≤ (Rectangle.mk 4 1 0 3).y ∧
      (Rectangle.mk 4 1 0 3).x + (Rectangle.mk 4 1 0 3).width ≤ normDim 5 - 1 ∧
      (Rectangle.mk 4 1 0 3).y + (Rectangle.mk 4 1 0 3).height ≤ normDim 5 - 1) :=
  ⟨by decide,
    (generateMaze_chamber_division_invariant 5 5 RNG.zeroGen (by decide)
        (by decide)).1
      (Rectangle.mk 4 1 0 3) (by decide)⟩

/-- Witness for C10: in the 5×5 run with the all-zeros stream, the wall
write at `(y,x) = (1,3)` passed the guard and is in bounds. -/
theorem generateMaze_writes_in_bounds_witness :
    (Point.mk 1 3 ∈ (generateMaze 5 5 RNG.zeroGen).writeLog) ∧
    (0 ≤ (Point.mk 1 3).x ∧ (Point.mk 1 3).x < normDim 5 ∧
      0 ≤ (Point.mk 1 3).y ∧ (Point.mk 1 3).y < normDim 5) :=
  ⟨by decide,
    generateMaze_writes_in_bounds 5 5 RNG.zeroGen (Point.mk 1 3) (by decide)⟩

/-- Witness for C4 (amended), applied to a subdividable 3×3 chamber of the
5×5 grid: the division is recorded and both sub-chambers are recursed into. -/
theorem subdivide_behavior_witness :
    ((3 : ℤ) ≤ (Rectangle.mk 1 1 3 3).width ∧
      (3 : ℤ) ≤ (Rectangle.mk 1 1 3 3).height) ∧
    (∃ d rest,
      (subdivide 5 5 4 (Rectangle.mk 1 1 3 3)
          { maze := initGrid 5 5, g := RNG.zeroGen, chamberLog := [],
            divLog := [], writeLog := [] }).divLog = [] ++ (Rectangle.mk 1 1 3 3, d) :: rest ∧
      (∃ s1 s2, (Rectangle.mk 1 1 3 3).split d = [s1, s2] ∧
        s1 ∈ (subdivide 5 5 4 (Rectangle.mk 1 1 3 3)
          { maze := initGrid 5 5, g := RNG.zeroGen, chamberLog := [],
            divLog := [], writeLog := [] }).chamberLog ∧
        s2 ∈ (subdivide 5 5 4 (Rectangle.mk 1 1 3 3)
          { maze := initGrid 5 5, g := RNG.zeroGen, chamberLog := [],
            divLog := [], writeLog := [] }).chamberLog)) :=
  ⟨by decide,
    (subdivide_behavior 5 5 3 (Rectangle.mk 1 1 3 3)
        { maze := initGrid 5 5, g := RNG.zeroGen, chamberLog := [],
          divLog := [], writeLog := [] }).2 (by decide)⟩

/-- C4 counterexample: the chamber `(1,1,5,2)` has `width = 5 ≥ 3`, yet
`subdivide` stops without drawing anything, because `canSubdivide` requires
*both* dimensions to be at least 3. -/
theorem subdivide_mixed_counterexample :
    ((3 : ℤ) ≤ (Rectangle.mk 1 1 5 2).width ∨
      (3 : ℤ) ≤ (Rectangle.mk 1 1 5 2).height) ∧
    (subdivide 9 9 5 (Rectangle.mk 1 1 5 2)
        { maze := initGrid 9 9, g := RNG.zeroGen, chamberLog := [],
          divLog := [], writeLog := [] }).divLog = [] ∧
    (subdivide 9 9 5 (Rectangle.mk 1 1 5 2)
        { maze := initGrid 9 9, g := RNG.zeroGen, chamberLog := [],
          divLog := [], writeLog := [] }).writeLog = [] ∧
    (subdivide 9 9 5 (Rectangle.mk 1 1 5 2)
        { maze := initGrid 9 9, g := RNG.zeroGen, chamberLog := [],
          divLog := [], writeLog := [] }).maze = initGrid 9 9 := by
  refine ⟨Or.inl (by decide), by decide, by decide, rfl⟩

end RecDiv

namespace Ray

theorem qfloor_eq_floor (q : ℚ) : qfloor q = ⌊q⌋ := by
  rw [qfloor, Int.fdiv_eq_ediv _ (by positivity), Rat.floor_def]

theorem ddaStep_oob_hitWall (e : RayEnv) (s : DdaState)
    (h : oob e (ddaStep e s)) : (ddaStep e s).hitWall = true := by
  unfold ddaStep at h ⊢
  set s1 :=
    if Xf.lt s.sideDistX s.sideDistY then
      { s with sideDistX := s.sideDistX.add (deltaDist e.dirX),
               mapX := s.mapX + stepX e, hitSide := WallType.vertical }
    else
      { s with sideDistY := s.sideDistY.add (deltaDist e.dirY),
               mapY := s.mapY + stepY e, hitSide := WallType.horizontal }
    with hs1
  by_cases hb : s1.mapY < 0 ∨ s1.mapY ≥ e.H ∨ s1.mapX < 0 ∨ s1.mapX ≥ e.W
  · rw [if_pos hb]
  · rw [if_neg hb] at h ⊢
    by_cases hm : e.map s1.mapY s1.mapX ≠ 0
    · rw [if_pos hm]
    · rw [if_neg hm] at h ⊢
      exact absurd h hb

theorem ddaRun_stable (e : RayEnv) (s : DdaState) (hs : ¬ ddaGuard e s) :
    ∀ k, ddaRun e k s = s := by
  intro k
  cases k with
  | zero => rfl
  | succ n => rw [ddaRun, if_neg hs]

theorem ddaRun_add (e : RayEnv) :
    ∀ (n k : ℕ) (s : DdaState), ddaRun e (n + k) s = ddaRun e k (ddaRun e n s) := by
  intro n
  induction n with
  | zero => intro k s; rw [Nat.zero_add]; rfl
  | succ m ih =>
    intro k s
    by_cases hg : ddaGuard e s
    · have : m + 1 + k = (m + k) + 1 := by omega
      rw [this, ddaRun, if_pos hg, ddaRun, if_pos hg, ih]
    · rw [ddaRun_stable e s hg, ddaRun_stable e s hg, ddaRun_stable e s hg]

theorem ddaRun_oob_invariant (e : RayEnv)
    (hstart : 0 ≤ qfloor e.startX ∧ qfloor e.startX < e.W ∧
      0 ≤ qfloor e.startY ∧ qfloor e.startY < e.H) :
    ∀ n, oob e (ddaRun e n (initState e)) →
      (ddaRun e n (initState e)).hitWall = true := by
  have main : ∀ (n : ℕ) (s : DdaState), (oob e s → s.hitWall = true) →
      (oob e (ddaRun e n s) → (ddaRun e n s).hitWall = true) := by
    intro n
    induction n with
    | zero => exact fun s h => h
    | succ m ih =>
      intro s hsink
      by_cases hg : ddaGuard e s
      · rw [ddaRun, if_pos hg]
        exact ih (ddaStep e s) (fun ho => ddaStep_oob_hitWall e s ho)
      · rw [ddaRun, if_neg hg]
        exact hsink
  intro n
  apply main
  intro ho
  exfalso
  unfold oob initState at ho
  simp only at ho
  omega

/-- C6: whenever the DDA traversal steps outside the grid bounds from a
start inside it, the loop has flagged a wall hit (and therefore terminates:
every further iteration leaves the state unchanged), and the emitted
`RayHit` carries cell code `1`, the default wall type. -/
theorem dda_out_of_bounds_is_wall_hit (e : RayEnv)
    (hstart : 0 ≤ qfloor e.startX ∧ qfloor e.startX < e.W ∧
      0 ≤ qfloor e.startY ∧ qfloor e.startY < e.H) :
    ∀ n, oob e (ddaRun e n (initState e)) →
      ((ddaRun e n (initState e)).hitWall = true ∧
       (∀ k, ddaRun e (n + k) (initState e) = ddaRun e n (initState e)) ∧
       rayHitWallType e (ddaRun e n (initState e)) = 1) := by
  intro n ho
  have hw : (ddaRun e n (initState e)).hitWall = true :=
    ddaRun_oob_invariant e hstart n ho
  refine ⟨hw, ?_, ?_⟩
  · intro k
    rw [ddaRun_add]
    exact ddaRun_stable e _ (fun hg => absurd hg.1 (by simp [hw])) k
  · unfold rayHitWallType
    rw [if_neg]
    unfold oob at ho
    omega

attribute [local semireducible] Rat.add Rat.mul Rat.sub Rat.inv Rat.ofScientific in
/-- C2 (code bug): the loop guard of `castSingleRay` reads `distance <
maxRayDistance`, but the local `distance` is initialized to `0.0` and never
assigned in the loop, so the configured maximum ray distance is never
enforced.  On the 20×20 open grid with `maxRayDistance = 2`: the loop is
still running after the claimed bound of `maxRayDistance / cellSize = 2`
steps; by step 4 both accumulated side distances exceed the maximum yet the
loop continues; it stops only at step 35, when the ray leaves the grid —
35 grid steps, and the guard variable `distance` still holds `0`. -/
theorem dda_max_distance_not_enforced :
    ((ddaRun openGrid20 2 (initState openGrid20)).hitWall = false ∧
      ddaGuard openGrid20 (ddaRun openGrid20 2 (initState openGrid20))) ∧
    (Xf.lt (Xf.fin openGrid20.maxRayDistance)
        (ddaRun openGrid20 4 (initState openGrid20)).sideDistX = true ∧
      Xf.lt (Xf.fin openGrid20.maxRayDistance)
        (ddaRun openGrid20 4 (initState openGrid20)).sideDistY = true ∧
      (ddaRun openGrid20 4 (initState openGrid20)).hitWall = false) ∧
    ((ddaRun openGrid20 34 (initState openGrid20)).hitWall = false ∧
      (ddaRun openGrid20 35 (initState openGrid20)).hitWall = true ∧
      (ddaRun openGrid20 35 (initState openGrid20)).mapX = 20 ∧
      (ddaRun openGrid20 35 (initState openGrid20)).mapY = 15) ∧
    ((ddaRun openGrid20 35 (initState openGrid20)).mapX - qfloor openGrid20.startX +
        ((ddaRun openGrid20 35 (initState openGrid20)).mapY - qfloor openGrid20.startY) =
      35 ∧
      (2 : ℚ) / 1 < 35) ∧
    (ddaRun openGrid20 35 (initState openGrid20)).distance = 0 := by
  refine ⟨⟨by decide, by decide⟩, ⟨by decide, by decide, by decide⟩,
    ⟨by decide, by decide, by decide, by decide⟩, ⟨by decide, by decide⟩,
    by decide⟩

attribute [local semireducible] Rat.add Rat.mul Rat.sub Rat.inv Rat.ofScientific in
/-- Witness for C6 on the 2×2 open grid: the third step leaves the grid
and the emitted hit carries cell code 1. -/
theorem dda_out_of_bounds_is_wall_hit_witness :
    ((0 ≤ qfloor openGrid2.startX ∧ qfloor openGrid2.startX < openGrid2.W ∧
       0 ≤ qfloor openGrid2.startY ∧ qfloor openGrid2.startY < openGrid2.H) ∧
     oob openGrid2 (ddaRun openGrid2 3 (initState openGrid2))) ∧
    ((ddaRun openGrid2 3 (initState openGrid2)).hitWall = true ∧
     (∀ k, ddaRun openGrid2 (3 + k) (initState openGrid2) =
        ddaRun openGrid2 3 (initState openGrid2)) ∧
     rayHitWallType openGrid2 (ddaRun openGrid2 3 (initState openGrid2)) = 1) :=
  ⟨⟨by decide, by decide⟩,
    dda_out_of_bounds_is_wall_hit openGrid2 (by decide) 3 (by decide)⟩

end Ray

namespace DFS

theorem dirs_spec (g : RNG.Gen) :
    (∀ d ∈ (getRandomDirections g).1, d ∈ ([0, 1, 2, 3] : List ℕ)) ∧
    (∀ d ∈ ([0, 1, 2, 3] : List ℕ), d ∈ (getRandomDirections g).1) := by
  have key : ∀ (a : Fin 4) (b : Fin 3) (c : Fin 2),
      (∀ d ∈ lswap (lswap (lswap [0, 1, 2, 3] 3 a.val) 2 b.val) 1 c.val,
        d ∈ ([0, 1, 2, 3] : List ℕ)) ∧
      (∀ d ∈ ([0, 1, 2, 3] : List ℕ),
        d ∈ lswap (lswap (lswap [0, 1, 2, 3] 3 a.val) 2 b.val) 1 c.val) := by
    decide
  have heq : (getRandomDirections g).1 =
      lswap (lswap (lswap [0, 1, 2, 3] 3 (RNG.uniformSample g 0 3).1.toNat) 2
          (RNG.uniformSample (RNG.uniformSample g 0 3).2 0 2).1.toNat) 1
        (RNG.uniformSample
          (RNG.uniformSample (RNG.uniformSample g 0 3).2 0 2).2 0 1).1.toNat := rfl
  obtain ⟨h3a, h3b⟩ := @RNG.uniformSample_mem g 0 3 (by omega)
  obtain ⟨h2a, h2b⟩ :=
    @RNG.uniformSample_mem (RNG.uniformSample g 0 3).2 0 2 (by omega)
  obtain ⟨h1a, h1b⟩ :=
    @RNG.uniformSample_mem
      (RNG.uniformSample (RNG.uniformSample g 0 3).2 0 2).2 0 1 (by omega)
  rw [heq]
  exact key ⟨(RNG.uniformSample g 0 3).1.toNat, by omega⟩
    ⟨(RNG.uniformSample (RNG.uniformSample g 0 3).2 0 2).1.toNat, by omega⟩
    ⟨(RNG.uniformSample
        (RNG.uniformSample (RNG.uniformSample g 0 3).2 0 2).2 0 1).1.toNat,
      by omega⟩

theorem dxA_vals : dxA 0 = 0 ∧ dxA 1 = 1 ∧ dxA 2 = 0 ∧ dxA 3 = -1 := by decide

theorem dyA_vals : dyA 0 = -1 ∧ dyA 1 = 0 ∧ dyA 2 = 1 ∧ dyA 3 = 0 := by decide

theorem adj2_of_dir (cx cy : ℤ) (d : ℕ) (hd : d ∈ ([0, 1, 2, 3] : List ℕ)) :
    adj2 (cx, cy) (cx + dxA d * 2, cy + dyA d * 2) := by
  obtain ⟨x0, x1, x2, x3⟩ := dxA_vals
  obtain ⟨y0, y1, y2, y3⟩ := dyA_vals
  simp only [List.mem_cons, List.not_mem_nil, or_false] at hd
  rcases hd with rfl | rfl | rfl | rfl
  · rw [x0, y0]; left; constructor <;> simp <;> omega
  · rw [x1, y1]; right; constructor <;> simp <;> omega
  · rw [x2, y2]; left; constructor <;> simp <;> omega
  · rw [x3, y3]; right; constructor <;> simp <;> omega

theorem midpt_eq (p c : ℤ × ℤ) (h : adj2 p c) :
    2 * (midpt (p, c)).1 = p.1 + c.1 ∧ 2 * (midpt (p, c)).2 = p.2 + c.2 := by
  obtain ⟨h1, h2⟩ | ⟨h1, h2⟩ := h
  · constructor
    · have h3 : c.1 - p.1 = 0 := by omega
      simp only [midpt, h3]
      have : Int.tdiv 0 2 = 0 := by decide
      rw [this]; omega
    · have h3 : c.2 - p.2 = 2 ∨ c.2 - p.2 = -2 := by omega
      rcases h3 with h3 | h3 <;> simp only [midpt, h3]
      · have : Int.tdiv 2 2 = 1 := by decide
        rw [this]; omega
      · have : Int.tdiv (-2) 2 = -1 := by decide
        rw [this]; omega
  · constructor
    · have h3 : c.1 - p.1 = 2 ∨ c.1 - p.1 = -2 := by omega
      rcases h3 with h3 | h3 <;> simp only [midpt, h3]
      · have : Int.tdiv 2 2 = 1 := by decide
        rw [this]; omega
      · have : Int.tdiv (-2) 2 = -1 := by decide
        rw [this]; omega
    · have h3 : c.2 - p.2 = 0 := by omega
      simp only [midpt, h3]
      have : Int.tdiv 0 2 = 0 := by decide
      rw [this]; omega

/-- The shape of every wall cell: unit-adjacent to both endpoints, one
coordinate shared with them (odd, interior), the other the even average. -/
theorem midpt_good (w h : ℤ) (p c : ℤ × ℤ) (hadj : adj2 p c)
    (hp : oddCell w h p) (hc : oddCell w h c) :
    unitAdj p (midpt (p, c)) ∧ unitAdj (midpt (p, c)) c ∧
    ((midpt (p, c)).1 % 2 = 1 ∧ (midpt (p, c)).2 % 2 = 0 ∨
     (midpt (p, c)).1 % 2 = 0 ∧ (midpt (p, c)).2 % 2 = 1) ∧
    1 ≤ (midpt (p, c)).1 ∧ (midpt (p, c)).1 ≤ w - 2 ∧
    1 ≤ (midpt (p, c)).2 ∧ (midpt (p, c)).2 ≤ h - 2 := by
  obtain ⟨hm1, hm2⟩ := midpt_eq p c hadj
  obtain ⟨hp1, hp2, hp3, hp4, hp5, hp6⟩ := hp
  obtain ⟨hc1, hc2, hc3, hc4, hc5, hc6⟩ := hc
  obtain ⟨ha1, ha2⟩ | ⟨ha1, ha2⟩ := hadj
  · refine ⟨?_, ?_, Or.inl ⟨by omega, by omega⟩, by omega, by omega, by omega,
      by omega⟩
    · unfold unitAdj; omega
    · unfold unitAdj; omega
  · refine ⟨?_, ?_, Or.inr ⟨by omega, by omega⟩, by omega, by omega, by omega,
      by omega⟩
    · unfold unitAdj; omega
    · unfold unitAdj; omega

theorem maze_one_of_upd (m : ℤ → ℤ → ℤ) (wy wx ny nx y x : ℤ)
    (h : Grid.upd (Grid.upd m wy wx 0) ny nx 0 y x = 1) : m y x = 1 := by
  by_cases h1 : y = ny ∧ x = nx
  · rw [Grid.upd, if_pos h1] at h
    exact absurd h (by norm_num)
  · rw [Grid.upd, if_neg h1] at h
    by_cases h2 : y = wy ∧ x = wx
    · rw [Grid.upd, if_pos h2] at h
      exact absurd h (by norm_num)
    · rw [Grid.upd, if_neg h2] at h
      exact h

theorem nbrCells_sound (w h : ℤ) (m : ℤ → ℤ → ℤ) (cx cy : ℤ)
    (dirs : List ℕ) (n : ℤ × ℤ) (hn : n ∈ nbrCells w h m cx cy dirs) :
    (∃ d ∈ dirs, n = (cx + dxA d * 2, cy + dyA d * 2)) ∧
    isUnvisited w h m n.1 n.2 := by
  unfold nbrCells at hn
  rw [List.mem_filterMap] at hn
  obtain ⟨d, hd, hfd⟩ := hn
  dsimp only at hfd
  by_cases hu : isUnvisited w h m (cx + dxA d * 2) (cy + dyA d * 2)
  · rw [if_pos hu] at hfd
    obtain rfl := Option.some.inj hfd
    exact ⟨⟨d, hd, rfl⟩, hu⟩
  · rw [if_neg hu] at hfd
    exact absurd hfd (Option.noConfusion)

theorem nbrCells_nil (w h : ℤ) (m : ℤ → ℤ → ℤ) (cx cy : ℤ)
    (dirs : List ℕ) (hnil : nbrCells w h m cx cy dirs = []) :
    ∀ d ∈ dirs, ¬ isUnvisited w h m (cx + dxA d * 2) (cy + dyA d * 2) := by
  intro d hd hu
  unfold nbrCells at hnil
  rw [List.filterMap_eq_nil_iff] at hnil
  have := hnil d hd
  dsimp only at this
  rw [if_pos hu] at this
  exact Option.noConfusion this

theorem oddCell_of_step (w h : ℤ) (hwo : w % 2 = 1) (hho : h % 2 = 1)
    (p n : ℤ × ℤ) (hp : oddCell w h p) (hadj : adj2 p n)
    (hval : isValid w h n.1 n.2) : oddCell w h n := by
  obtain ⟨hp1, hp2, hp3, hp4, hp5, hp6⟩ := hp
  obtain ⟨hv1, hv2, hv3, hv4⟩ := hval
  obtain ⟨ha1, ha2⟩ | ⟨ha1, ha2⟩ := hadj <;>
    exact ⟨by omega, by omega, by omega, by omega, by omega, by omega⟩

theorem getD_append_left {α : Type} (l l' : List α) (d : α) (n : ℕ)
    (h : n < l.length) : (l ++ l').getD n d = l.getD n d := by
  simp only [List.getD_eq_getElem?_getD]
  rw [List.getElem?_append, if_pos h]

theorem getD_append_at {α : Type} (l : List α) (a d : α) :
    (l ++ [a]).getD l.length d = a := by
  simp only [List.getD_eq_getElem?_getD]
  rw [List.getElem?_append_right (le_refl _)]
  simp

theorem mids_append (E : List ((ℤ × ℤ) × (ℤ × ℤ))) (e : (ℤ × ℤ) × (ℤ × ℤ)) :
    mids (E ++ [e]) = mids E ++ [midpt e] := by
  simp [mids]

theorem mazeStep_inv (w h : ℤ) (hw : 3 ≤ w) (hh : 3 ≤ h)
    (hwo : w % 2 = 1) (hho : h % 2 = 1) (s : IState) (hs : Inv w h s) :
    Inv w h (mazeStep w h s) := by
  obtain ⟨vhead, vbox, vnodup, mchar, ⟨elen, espec⟩, ssub, snodup, sclosed⟩ := hs
  cases hstack : s.stack with
  | nil =>
    simp only [mazeStep, hstack]
    exact ⟨vhead, vbox, vnodup, mchar, ⟨elen, espec⟩, ssub, snodup, sclosed⟩
  | cons top rest =>
    obtain ⟨cx, cy⟩ := top
    have htop : (cx, cy) ∈ s.vis :=
      ssub _ (by rw [hstack]; exact List.mem_cons_self _ _)
    cases hnb : nbrCells w h s.maze cx cy (getRandomDirections s.g).1 with
    | nil =>
      -- backtrack: pop the stack
      simp only [mazeStep, hstack, hnb]
      have hrest_nodup : rest.Nodup := by
        rw [hstack] at snodup
        exact (List.nodup_cons.mp snodup).2
      refine ⟨vhead, vbox, vnodup, mchar, ⟨elen, espec⟩, ?_, hrest_nodup, ?_⟩
      · intro c hc
        exact ssub c (by rw [hstack]; exact List.mem_cons_of_mem _ hc)
      · intro c hcv hcr d hd
        by_cases hctop : c = (cx, cy)
        · subst hctop
          exact nbrCells_nil w h s.maze cx cy _ hnb d ((dirs_spec s.g).2 d hd)
        · refine sclosed c hcv ?_ d hd
          rw [hstack]
          intro hmem
          rcases List.mem_cons.mp hmem with heq | hmem'
          · exact hctop heq
          · exact hcr hmem'
    | cons nxy nb' =>
      obtain ⟨nx, ny⟩ := nxy
      simp only [mazeStep, hstack, hnb]
      have hmemn : (nx, ny) ∈ nbrCells w h s.maze cx cy
          (getRandomDirections s.g).1 := by
        rw [hnb]; exact List.mem_cons_self _ _
      obtain ⟨⟨d, hd, hne⟩, hunvis⟩ := nbrCells_sound w h s.maze cx cy _ _ hmemn
      have hoddc : oddCell w h (cx, cy) := vbox _ htop
      have hadj : adj2 (cx, cy) (nx, ny) := by
        rw [hne]
        exact adj2_of_dir cx cy d ((dirs_spec s.g).1 d hd)
      have hoddn : oddCell w h (nx, ny) :=
        oddCell_of_step w h hwo hho _ _ hoddc hadj hunvis.1
      have hn_nvis : (nx, ny) ∉ s.vis := by
        intro hmem
        have hmc := mchar nx ny
        rw [if_pos (Or.inl hmem)] at hmc
        rw [hunvis.2] at hmc
        exact absurd hmc (by norm_num)
      obtain ⟨hu1, hu2, hpar, hb1, hb2, hb3, hb4⟩ :=
        midpt_good w h (cx, cy) (nx, ny) hadj hoddc hoddn
      have hmid_ne_n : midpt ((cx, cy), (nx, ny)) ≠ (nx, ny) := by
        intro hcon
        obtain ⟨ho1, ho2, _⟩ := hoddn
        rw [hcon] at hpar
        omega
      have hvis_ne : s.vis ≠ [] := by
        intro hcon
        rw [hcon] at vhead
        exact Option.noConfusion vhead
      have hmid1 : (midpt ((cx, cy), (nx, ny))).1 = cx + Int.tdiv (nx - cx) 2 := rfl
      have hmid2 : (midpt ((cx, cy), (nx, ny))).2 = cy + Int.tdiv (ny - cy) 2 := rfl
      constructor
      -- vis_head
      · dsimp only
        obtain ⟨v0, vt, hv⟩ : ∃ v0 vt, s.vis = v0 :: vt := by
          cases hv : s.vis with
          | nil => exact absurd hv hvis_ne
          | cons a t => exact ⟨a, t, rfl⟩
        rw [hv]
        rw [hv] at vhead
        simpa using vhead
      -- vis_box
      · dsimp only
        intro c hc
        rcases List.mem_append.mp hc with hc | hc
        · exact vbox c hc
        · rw [List.mem_singleton.mp hc]
          exact hoddn
      -- vis_nodup
      · dsimp only
        rw [List.nodup_append]
        exact ⟨vnodup, List.nodup_singleton _,
          fun a ha hb => hn_nvis ((List.mem_singleton.mp hb) ▸ ha)⟩
      -- maze_char
      · dsimp only
        intro x y
        by_cases hxy1 : (x, y) = (nx, ny)
        · have hx : x = nx := congrArg Prod.fst hxy1
          have hy : y = ny := congrArg Prod.snd hxy1
          subst hx; subst hy
          rw [Grid.upd_same]
          rw [if_pos (Or.inl (List.mem_append.mpr (Or.inr (by simp))))]
        · by_cases hxy2 : (x, y) = midpt ((cx, cy), (nx, ny))
          · have hxv : x = cx + Int.tdiv (nx - cx) 2 := by
              have h0 := congrArg Prod.fst hxy2
              rw [hmid1] at h0
              exact h0
            have hyv : y = cy + Int.tdiv (ny - cy) 2 := by
              have h0 := congrArg Prod.snd hxy2
              rw [hmid2] at h0
              exact h0
            subst hxv; subst hyv
            have hcond : ¬(cy + Int.tdiv (ny - cy) 2 = ny ∧
                cx + Int.tdiv (nx - cx) 2 = nx) := by
              intro hcon
              apply hmid_ne_n
              exact Prod.ext_iff.mpr ⟨by rw [hmid1]; exact hcon.2,
                by rw [hmid2]; exact hcon.1⟩
            rw [Grid.upd_ne _ _ _ _ _ _ hcond, Grid.upd_same]
            rw [if_pos (Or.inr (by
              rw [mids_append]
              exact List.mem_append.mpr (Or.inr
                (List.mem_singleton.mpr hxy2))))]
          · have hc1 : ¬(y = ny ∧ x = nx) :=
              fun hcon => hxy1 (Prod.ext_iff.mpr ⟨hcon.2, hcon.1⟩)
            have hc2 : ¬(y = cy + Int.tdiv (ny - cy) 2 ∧
                x = cx + Int.tdiv (nx - cx) 2) := by
              intro hcon
              apply hxy2
              exact Prod.ext_iff.mpr ⟨by rw [hmid1]; exact hcon.2,
                by rw [hmid2]; exact hcon.1⟩
            rw [Grid.upd_ne _ _ _ _ _ _ hc1, Grid.upd_ne _ _ _ _ _ _ hc2,
              mchar x y]
            have hiff : ((x, y) ∈ s.vis ++ [(nx, ny)] ∨
                (x, y) ∈ mids (s.edges ++ [((cx, cy), (nx, ny))])) ↔
                ((x, y) ∈ s.vis ∨ (x, y) ∈ mids s.edges) := by
              rw [mids_append]
              simp only [List.mem_append, List.mem_singleton]
              constructor
              · rintro ((hm | hm) | (hm | hm))
                · exact Or.inl hm
                · exact absurd hm hxy1
                · exact Or.inr hm
                · exact absurd hm hxy2
              · rintro (hm | hm)
                · exact Or.inl (Or.inl hm)
                · exact Or.inr (Or.inl hm)
            exact if_congr hiff.symm rfl rfl
      -- aligned
      · dsimp only
        constructor
        · simp only [List.length_append, List.length_singleton]
          omega
        · intro i hi
          simp only [List.length_append, List.length_singleton] at hi
          by_cases hilt : i < s.edges.length
          · rw [getD_append_left _ _ _ _ hilt,
              getD_append_left _ _ _ _ (by omega : i + 1 < s.vis.length),
              List.take_append_of_le_length (by omega : i + 1 ≤ s.vis.length)]
            exact espec i hilt
          · have hieq : i = s.edges.length := by omega
            subst hieq
            rw [getD_append_at]
            refine ⟨?_, ?_, ?_⟩
            · have h1 : s.edges.length + 1 = s.vis.length := elen
              rw [h1, getD_append_at]
            · have h1 : s.edges.length + 1 = s.vis.length := elen
              rw [h1, List.take_append_of_le_length (le_refl _),
                List.take_length]
              exact htop
            · exact hadj
      -- stack_sub
      · dsimp only
        intro c hc
        rcases List.mem_cons.mp hc with rfl | hc
        · exact List.mem_append.mpr (Or.inr (by simp))
        · rcases List.mem_cons.mp hc with rfl | hc
          · exact List.mem_append.mpr (Or.inl htop)
          · exact List.mem_append.mpr (Or.inl (ssub c
              (by rw [hstack]; exact List.mem_cons_of_mem _ hc)))
      -- stack_nodup
      · dsimp only
        rw [List.nodup_cons]
        constructor
        · intro hmem
          apply hn_nvis
          apply ssub
          rw [hstack]
          exact hmem
        · rw [← hstack]
          exact snodup
      -- closed
      · dsimp only
        intro c hcv hcst d' hd'
        have hcvis : c ∈ s.vis := by
          rcases List.mem_append.mp hcv with hm | hm
          · exact hm
          · exfalso
            apply hcst
            rw [List.mem_singleton.mp hm]
            exact List.mem_cons_self _ _
        have hcold : c ∉ s.stack := by
          intro hmem
          apply hcst
          apply List.mem_cons_of_mem
          rw [hstack] at hmem
          exact hmem
        have hold := sclosed c hcvis hcold d' hd'
        intro hu
        apply hold
        exact ⟨hu.1, maze_one_of_upd _ _ _ _ _ _ _ hu.2⟩

theorem oddCell_mk (w h x y : ℤ) (h1 : x % 2 = 1) (h2 : y % 2 = 1)
    (h3 : 1 ≤ x) (h4 : x ≤ w - 2) (h5 : 1 ≤ y) (h6 : y ≤ h - 2) :
    oddCell w h (x, y) := ⟨h1, h2, h3, h4, h5, h6⟩

theorem vis_length_le (w h : ℤ) (s : IState) (hs : Inv w h s) :
    s.vis.length ≤ (oddFinset w h).card := by
  have hsub : s.vis.toFinset ⊆ oddFinset w h := by
    intro c hc
    rw [List.mem_toFinset] at hc
    obtain ⟨h1, h2, h3, h4, h5, h6⟩ := hs.vis_box c hc
    simp only [oddFinset, Finset.mem_filter, Finset.mem_product, Finset.mem_Icc]
    exact ⟨⟨⟨by omega, by omega⟩, by omega, by omega⟩, hs.vis_box c hc⟩
  calc s.vis.length = s.vis.toFinset.card :=
        (List.toFinset_card_of_nodup hs.vis_nodup).symm
    _ ≤ _ := Finset.card_le_card hsub

theorem mazeStep_measure (w h : ℤ) (hw : 3 ≤ w) (hh : 3 ≤ h)
    (hwo : w % 2 = 1) (hho : h % 2 = 1) (s : IState) (hs : Inv w h s)
    (hne : s.stack ≠ []) :
    dfsMeasure w h (mazeStep w h s) < dfsMeasure w h s := by
  have hvle' := vis_length_le w h _ (mazeStep_inv w h hw hh hwo hho s hs)
  cases hstack : s.stack with
  | nil => exact absurd hstack hne
  | cons top rest =>
    obtain ⟨cx, cy⟩ := top
    cases hnb : nbrCells w h s.maze cx cy (getRandomDirections s.g).1 with
    | nil =>
      simp only [dfsMeasure, mazeStep, hstack, hnb, List.length_cons]
      omega
    | cons nxy nb' =>
      obtain ⟨nx, ny⟩ := nxy
      have hv' : (mazeStep w h s).vis = s.vis ++ [(nx, ny)] := by
        simp only [mazeStep, hstack, hnb]
      have hst' : (mazeStep w h s).stack = (nx, ny) :: (cx, cy) :: rest := by
        simp only [mazeStep, hstack, hnb]
      rw [hv'] at hvle'
      simp only [List.length_append, List.length_singleton] at hvle'
      simp only [dfsMeasure, hv', hst', hstack, List.length_cons,
        List.length_append, List.length_singleton]
      omega

theorem run_spec (w h : ℤ) (hw : 3 ≤ w) (hh : 3 ≤ h)
    (hwo : w % 2 = 1) (hho : h % 2 = 1) :
    ∀ (k : ℕ) (s : IState), Inv w h s → dfsMeasure w h s ≤ k →
      (run w h k s).stack = [] ∧ Inv w h (run w h k s) := by
  intro k
  induction k with
  | zero =>
    intro s hs hm
    have hlen : s.stack.length = 0 := by
      unfold dfsMeasure at hm; omega
    rw [run]
    exact ⟨List.length_eq_zero.mp hlen, hs⟩
  | succ n ih =>
    intro s hs hm
    by_cases hnil : s.stack = []
    · rw [run, if_pos hnil]
      exact ⟨hnil, hs⟩
    · rw [run, if_neg hnil]
      refine ih (mazeStep w h s) (mazeStep_inv w h hw hh hwo hho s hs) ?_
      have := mazeStep_measure w h hw hh hwo hho s hs hnil
      omega

theorem init_inv (w h : ℤ) (hw : 3 ≤ w) (hh : 3 ≤ h) (g : RNG.Gen) :
    Inv w h (initState g) := by
  constructor
  · rfl
  · intro c hc
    have hc1 : c = (1, 1) := List.mem_singleton.mp hc
    subst hc1
    exact oddCell_mk w h 1 1 (by decide) (by decide) (by decide) (by omega)
      (by decide) (by omega)
  · exact List.nodup_singleton _
  · intro x y
    simp only [initState]
    by_cases hxy : y = 1 ∧ x = 1
    · obtain ⟨hy, hx⟩ := hxy
      subst hy; subst hx
      rw [Grid.upd_same, if_pos (Or.inl (List.mem_singleton.mpr rfl))]
    · rw [Grid.upd_ne _ _ _ _ _ _ hxy, if_neg]
      rintro (hm | hm)
      · rw [List.mem_singleton] at hm
        exact hxy ⟨congrArg Prod.snd hm, congrArg Prod.fst hm⟩
      · simp [mids] at hm
  · exact ⟨rfl, fun i hi => absurd hi (Nat.not_lt_zero i)⟩
  · exact fun c hc => hc
  · exact List.nodup_singleton _
  · intro c hcv hcs
    exact (hcs hcv).elim

theorem oddFinset_card_le (w h : ℤ) (hw : 3 ≤ w) (hh : 3 ≤ h) :
    (oddFinset w h).card ≤ w.toNat * h.toNat := by
  calc (oddFinset w h).card
      ≤ ((Finset.Icc 0 (w - 1)) ×ˢ (Finset.Icc 0 (h - 1))).card :=
        Finset.card_filter_le _ _
    _ = (Finset.Icc (0:ℤ) (w - 1)).card * (Finset.Icc (0:ℤ) (h - 1)).card :=
        Finset.card_product _ _
    _ = (w - 1 + 1 - 0).toNat * (h - 1 + 1 - 0).toNat := by
        rw [Int.card_Icc, Int.card_Icc]
    _ ≤ w.toNat * h.toNat := Nat.mul_le_mul (by omega) (by omega)

theorem one_one_mem_oddFinset (w h : ℤ) (hw : 3 ≤ w) (hh : 3 ≤ h) :
    ((1:ℤ), (1:ℤ)) ∈ oddFinset w h := by
  simp only [oddFinset, Finset.mem_filter, Finset.mem_product, Finset.mem_Icc]
  exact ⟨⟨⟨by omega, by omega⟩, by omega, by omega⟩,
    oddCell_mk w h 1 1 (by decide) (by decide) (by decide) (by omega)
      (by decide) (by omega)⟩

theorem dfsFuel_sufficient (w h : ℤ) (hw : 3 ≤ w) (hh : 3 ≤ h) (g : RNG.Gen) :
    dfsMeasure w h (initState g) ≤ dfsFuel w h := by
  have hcard := oddFinset_card_le w h hw hh
  have hpos : 1 ≤ (oddFinset w h).card :=
    Finset.card_pos.mpr ⟨_, one_one_mem_oddFinset w h hw hh⟩
  have hN2 : (2 * (oddFinset w h).card : ℕ) ≤ dfsFuel w h := by
    unfold dfsFuel
    rw [Int.le_toNat (by nlinarith)]
    push_cast
    have hc : ((oddFinset w h).card : ℤ) ≤ (w.toNat : ℤ) * (h.toNat : ℤ) := by
      exact_mod_cast hcard
    rw [Int.toNat_of_nonneg (by omega : (0:ℤ) ≤ w),
      Int.toNat_of_nonneg (by omega : (0:ℤ) ≤ h)] at hc
    nlinarith
  simp only [dfsMeasure, initState, List.length_singleton]
  omega

theorem generateMazeAux_spec (w h : ℤ) (hw : 3 ≤ w) (hh : 3 ≤ h)
    (hwo : w % 2 = 1) (hho : h % 2 = 1) (g : RNG.Gen) :
    (generateMazeAux w h g).stack = [] ∧ Inv w h (generateMazeAux w h g) :=
  run_spec w h hw hh hwo hho (dfsFuel w h) (initState g)
    (init_inv w h hw hh g) (dfsFuel_sufficient w h hw hh g)

theorem mids_spec (w h : ℤ) (s : IState) (hs : Inv w h s) (p : ℤ × ℤ)
    (hp : p ∈ mids s.edges) :
    (p.1 % 2 = 1 ∧ p.2 % 2 = 0 ∨ p.1 % 2 = 0 ∧ p.2 % 2 = 1) ∧
    1 ≤ p.1 ∧ p.1 ≤ w - 2 ∧ 1 ≤ p.2 ∧ p.2 ≤ h - 2 := by
  obtain ⟨e, he, hpe⟩ := List.mem_map.mp hp
  obtain ⟨i, hi, hei⟩ := List.mem_iff_getElem.mp he
  obtain ⟨elen, espec⟩ := hs.aligned
  have hgd : s.edges.getD i ((0,0),(0,0)) = e := by
    rw [List.getD_eq_getElem?_getD, List.getElem?_eq_getElem hi,
      Option.getD_some, hei]
  obtain ⟨h1, h2, h3⟩ := espec i hi
  rw [hgd] at h1 h2 h3
  have hc2 : e.2 ∈ s.vis := by
    rw [h1]
    have hlt : i + 1 < s.vis.length := by omega
    rw [List.getD_eq_getElem?_getD, List.getElem?_eq_getElem hlt,
      Option.getD_some]
    exact List.getElem_mem _
  have hc1 : e.1 ∈ s.vis := List.take_subset _ _ h2
  obtain ⟨_, _, hpar, hb1, hb2, hb3, hb4⟩ :=
    midpt_good w h e.1 e.2 h3 (hs.vis_box _ hc1) (hs.vis_box _ hc2)
  have hpe' : midpt (e.1, e.2) = p := hpe
  rw [hpe'] at hpar hb1 hb2 hb3 hb4
  exact ⟨hpar, hb1, hb2, hb3, hb4⟩

theorem visited_closed (w h : ℤ) (s : IState) (hs : Inv w h s)
    (hempty : s.stack = []) (c : ℤ × ℤ) (hc : c ∈ s.vis)
    (n : ℤ × ℤ) (hn : oddCell w h n) (hadj : adj2 c n) : n ∈ s.vis := by
  by_contra hnv
  have hd : ∃ d ∈ ([0, 1, 2, 3] : List ℕ),
      n.1 = c.1 + dxA d * 2 ∧ n.2 = c.2 + dyA d * 2 := by
    obtain ⟨ha1, ha2⟩ | ⟨ha1, ha2⟩ := hadj
    · by_cases hle : c.2 ≤ n.2
      · refine ⟨2, by decide, ?_, ?_⟩
        · rw [dxA_vals.2.2.1]; omega
        · rw [dyA_vals.2.2.1]; omega
      · refine ⟨0, by decide, ?_, ?_⟩
        · rw [dxA_vals.1]; omega
        · rw [dyA_vals.1]; omega
    · by_cases hle : c.1 ≤ n.1
      · refine ⟨1, by decide, ?_, ?_⟩
        · rw [dxA_vals.2.1]; omega
        · rw [dyA_vals.2.1]; omega
      · refine ⟨3, by decide, ?_, ?_⟩
        · rw [dxA_vals.2.2.2]; omega
        · rw [dyA_vals.2.2.2]; omega
  obtain ⟨d, hdmem, he1, he2⟩ := hd
  have hstk : c ∉ s.stack := by rw [hempty]; exact List.not_mem_nil c
  apply hs.closed c hc hstk d hdmem
  obtain ⟨hn1, hn2, hn3, hn4, hn5, hn6⟩ := hn
  refine ⟨⟨?_, ?_, ?_, ?_⟩, ?_⟩
  · rw [← he1]; omega
  · rw [← he1]; omega
  · rw [← he2]; omega
  · rw [← he2]; omega
  · rw [← he1, ← he2, hs.maze_char n.1 n.2, if_neg]
    rintro (hm | hm)
    · exact hnv hm
    · obtain ⟨hpar, _⟩ := mids_spec w h s hs _ hm
      dsimp only at hpar
      rcases hpar with ⟨p1, p2⟩ | ⟨p1, p2⟩ <;> omega

theorem head_mem_of_head? {α : Type} (l : List α) (a : α)
    (h : l.head? = some a) : a ∈ l := by
  cases l with
  | nil => exact Option.noConfusion h
  | cons b t =>
    simp only [List.head?_cons, Option.some.injEq] at h
    rw [← h]
    exact List.mem_cons_self _ _

theorem all_odd_visited (w h : ℤ) (s : IState) (hs : Inv w h s)
    (hempty : s.stack = []) :
    ∀ c : ℤ × ℤ, oddCell w h c → c ∈ s.vis := by
  have h11 : ((1:ℤ), (1:ℤ)) ∈ s.vis := head_mem_of_head? _ _ hs.vis_head
  have main : ∀ (k : ℕ) (c : ℤ × ℤ), (c.1 + c.2).toNat ≤ k →
      oddCell w h c → c ∈ s.vis := by
    intro k
    induction k with
    | zero =>
      intro c hk hc
      obtain ⟨h1, h2, h3, h4, h5, h6⟩ := hc
      omega
    | succ n ih =>
      intro c hk hc
      obtain ⟨h1, h2, h3, h4, h5, h6⟩ := hc
      by_cases hx : c.1 = 1
      · by_cases hy : c.2 = 1
        · have hcq : c = (1, 1) := Prod.ext_iff.mpr ⟨hx, hy⟩
          rw [hcq]; exact h11
        · have hprev := oddCell_mk w h c.1 (c.2 - 2) h1 (by omega) h3 h4
            (by omega) (by omega)
          have hmem := ih (c.1, c.2 - 2)
            (by show (c.1 + (c.2 - 2)).toNat ≤ n; omega) hprev
          have hadj : adj2 (c.1, c.2 - 2) c :=
            Or.inl ⟨rfl, by show ((c.2 - 2) - c.2).natAbs = 2; omega⟩
          exact visited_closed w h s hs hempty _ hmem c
            ⟨h1, h2, h3, h4, h5, h6⟩ hadj
      · have hprev := oddCell_mk w h (c.1 - 2) c.2 (by omega) h2
          (by omega) (by omega) h5 h6
        have hmem := ih (c.1 - 2, c.2)
          (by show ((c.1 - 2) + c.2).toNat ≤ n; omega) hprev
        have hadj : adj2 (c.1 - 2, c.2) c :=
          Or.inr ⟨rfl, by show ((c.1 - 2) - c.1).natAbs = 2; omega⟩
        exact visited_closed w h s hs hempty _ hmem c
          ⟨h1, h2, h3, h4, h5, h6⟩ hadj
  intro c hc
  exact main (c.1 + c.2).toNat c (le_refl _) hc

theorem border_wall (w h : ℤ) (hw : 3 ≤ w) (hh : 3 ≤ h)
    (hwo : w % 2 = 1) (hho : h % 2 = 1) (g : RNG.Gen) (x y : ℤ)
    (hb : x = 0 ∨ x = w - 1 ∨ y = 0 ∨ y = h - 1) :
    (generateMazeAux w h g).maze y x = 1 := by
  obtain ⟨hempty, hinv⟩ := generateMazeAux_spec w h hw hh hwo hho g
  rw [hinv.maze_char x y, if_neg]
  rintro (hm | hm)
  · obtain ⟨_, _, b3, b4, b5, b6⟩ := hinv.vis_box _ hm
    dsimp only at b3 b4 b5 b6
    omega
  · obtain ⟨_, b1, b2, b3, b4⟩ := mids_spec w h _ hinv _ hm
    dsimp only at b1 b2 b3 b4
    omega

theorem idxOf_lt_length {α : Type} [DecidableEq α] (l : List α) (a : α)
    (h : a ∈ l) : idxOf l a < l.length :=
  List.indexOf_lt_length.mpr h

theorem get_idxOf {α : Type} [DecidableEq α] (l : List α) (a : α)
    (h : idxOf l a < l.length) : l.get ⟨idxOf l a, h⟩ = a :=
  List.indexOf_get h

theorem idxOf_get {α : Type} [DecidableEq α] (l : List α) (H : l.Nodup)
    (i : ℕ) (h : i < l.length) : idxOf l (l.get ⟨i, h⟩) = i :=
  List.indexOf_getElem H i h

theorem idxOf_cons_self {α : Type} [DecidableEq α] (a : α) (l : List α) :
    idxOf (a :: l) a = 0 :=
  List.indexOf_cons_self a l

theorem idxOf_append_of_mem {α : Type} [DecidableEq α] (l m : List α) (a : α)
    (h : a ∈ l) : idxOf (l ++ m) a = idxOf l a :=
  List.indexOf_append_of_mem h

theorem mids_length (E : List ((ℤ × ℤ) × (ℤ × ℤ))) :
    (mids E).length = E.length :=
  List.length_map _ _

theorem mem_take_of_getElem {α : Type} (l : List α) (n i : ℕ)
    (hi : i < l.length) (hin : i < n) : l[i] ∈ l.take n := by
  have hlen : i < (l.take n).length := by
    rw [List.length_take]; omega
  have he : (l.take n)[i] = l[i] := List.getElem_take l
  rw [← he]
  exact List.getElem_mem _

theorem idxOf_lt_of_mem_take {α : Type} [DecidableEq α] (l : List α)
    (n : ℕ) (a : α) (h : a ∈ l.take n) : idxOf l a < n := by
  have h1 : idxOf l a = idxOf (l.take n) a := by
    conv_lhs => rw [← List.take_append_drop n l]
    exact idxOf_append_of_mem _ _ _ h
  have h2 : idxOf (l.take n) a < (l.take n).length :=
    idxOf_lt_length _ _ h
  have h3 : (l.take n).length ≤ n := by
    rw [List.length_take]; exact Nat.min_le_left _ _
  omega

theorem vis_not_marker (w h : ℤ) (s : IState) (hs : Inv w h s) (v : ℤ × ℤ)
    (hv : v ∈ s.vis) :
    v ≠ ((0:ℤ), (1:ℤ)) ∧ v ≠ (w - 1, h - 2) ∧
    (v.1 % 2 = 1 ∧ v.2 % 2 = 1) := by
  obtain ⟨h1, h2, h3, h4, h5, h6⟩ := hs.vis_box v hv
  refine ⟨fun he => absurd (he ▸ h3) (by decide), ?_, h1, h2⟩
  intro he
  rw [he] at h4
  dsimp only at h4
  omega

theorem mid_not_marker (w h : ℤ) (s : IState) (hs : Inv w h s) (m : ℤ × ℤ)
    (hm : m ∈ mids s.edges) :
    m ≠ ((0:ℤ), (1:ℤ)) ∧ m ≠ (w - 1, h - 2) ∧
    ¬(m.1 % 2 = 1 ∧ m.2 % 2 = 1) := by
  obtain ⟨hpar, hb1, hb2, hb3, hb4⟩ := mids_spec w h s hs m hm
  refine ⟨fun he => absurd (he ▸ hb1) (by decide), ?_, ?_⟩
  · intro he
    rw [he] at hb2
    dsimp only at hb2
    omega
  · intro hodd
    rcases hpar with ⟨p1, p2⟩ | ⟨p1, p2⟩ <;> omega

theorem rankFun_vis (w h : ℤ) (s : IState) (hs : Inv w h s) (v : ℤ × ℤ)
    (hv : v ∈ s.vis) : rankFun w h s v = 2 * idxOf s.vis v := by
  obtain ⟨hne1, hne2, hpar⟩ := vis_not_marker w h s hs v hv
  unfold rankFun
  rw [if_neg hne1, if_neg hne2, if_pos hpar]

theorem rankFun_mid (w h : ℤ) (s : IState) (hs : Inv w h s) (m : ℤ × ℤ)
    (hm : m ∈ mids s.edges) :
    rankFun w h s m = 2 * idxOf (mids s.edges) m + 1 := by
  obtain ⟨hne1, hne2, hpar⟩ := mid_not_marker w h s hs m hm
  unfold rankFun
  rw [if_neg hne1, if_neg hne2, if_neg hpar]

theorem rankFun_entrance (w h : ℤ) (s : IState) :
    rankFun w h s (0, 1) = 2 * s.vis.length := by
  unfold rankFun
  rw [if_pos rfl]

theorem exit_ne_entrance (w h : ℤ) (hw : 3 ≤ w) :
    ((w - 1 : ℤ), (h - 2 : ℤ)) ≠ ((0:ℤ), (1:ℤ)) := by
  intro he
  have := congrArg Prod.fst he
  dsimp only at this
  omega

theorem rankFun_exit (w h : ℤ) (hw : 3 ≤ w) (s : IState) :
    rankFun w h s (w - 1, h - 2) = 2 * s.vis.length + 1 := by
  unfold rankFun
  rw [if_neg (exit_ne_entrance w h hw), if_pos rfl]

theorem parFun_vis (w h : ℤ) (s : IState) (hs : Inv w h s) (v : ℤ × ℤ)
    (hv : v ∈ s.vis) :
    parFun w h s v =
      midpt (s.edges.getD (idxOf s.vis v - 1) ((0, 0), (0, 0))) := by
  obtain ⟨hne1, hne2, hpar⟩ := vis_not_marker w h s hs v hv
  unfold parFun
  rw [if_neg hne1, if_neg hne2, if_pos hpar]

theorem parFun_mid (w h : ℤ) (s : IState) (hs : Inv w h s) (m : ℤ × ℤ)
    (hm : m ∈ mids s.edges) :
    parFun w h s m =
      (s.edges.getD (idxOf (mids s.edges) m) ((0, 0), (0, 0))).1 := by
  obtain ⟨hne1, hne2, hpar⟩ := mid_not_marker w h s hs m hm
  unfold parFun
  rw [if_neg hne1, if_neg hne2, if_neg hpar]

theorem parFun_entrance (w h : ℤ) (s : IState) :
    parFun w h s (0, 1) = (1, 1) := by
  unfold parFun
  rw [if_pos rfl]

theorem parFun_exit (w h : ℤ) (hw : 3 ≤ w) (s : IState) :
    parFun w h s (w - 1, h - 2) = (w - 2, h - 2) := by
  unfold parFun
  rw [if_neg (exit_ne_entrance w h hw), if_pos rfl]

theorem vis_head_getElem (w h : ℤ) (s : IState) (hs : Inv w h s)
    (hlen : 0 < s.vis.length) : s.vis.get ⟨0, hlen⟩ = (1, 1) := by
  have hh := hs.vis_head
  rw [List.head?_eq_getElem?, List.getElem?_eq_getElem hlen] at hh
  exact Option.some.inj hh

theorem vis_idxOf_head (w h : ℤ) (s : IState) (hs : Inv w h s) :
    idxOf s.vis ((1:ℤ), (1:ℤ)) = 0 := by
  have hh := hs.vis_head
  cases hv : s.vis with
  | nil => rw [hv] at hh; exact Option.noConfusion hh
  | cons a t =>
    rw [hv] at hh
    simp only [List.head?_cons, Option.some.injEq] at hh
    rw [← hh]
    exact idxOf_cons_self a t

theorem vis_eq_head_of_idxOf_zero (w h : ℤ) (s : IState) (hs : Inv w h s)
    (v : ℤ × ℤ) (hv : v ∈ s.vis) (h0 : idxOf s.vis v = 0) :
    v = (1, 1) := by
  have hlt : idxOf s.vis v < s.vis.length := idxOf_lt_length _ _ hv
  have hg := get_idxOf s.vis v hlt
  rw [← hg]
  have hlen : 0 < s.vis.length := by omega
  have hfin : (⟨idxOf s.vis v, hlt⟩ : Fin s.vis.length) = ⟨0, hlen⟩ :=
    Fin.ext h0
  rw [hfin]
  exact vis_head_getElem w h s hs hlen

theorem vis_parent_edge (w h : ℤ) (s : IState) (hs : Inv w h s) (v : ℤ × ℤ)
    (hv : v ∈ s.vis) (hvr : v ≠ ((1:ℤ), (1:ℤ))) :
    1 ≤ idxOf s.vis v ∧ idxOf s.vis v < s.vis.length ∧
    idxOf s.vis v - 1 < s.edges.length ∧
    (s.edges.getD (idxOf s.vis v - 1) ((0, 0), (0, 0))).2 = v := by
  obtain ⟨elen, espec⟩ := hs.aligned
  have hjlt : idxOf s.vis v < s.vis.length := idxOf_lt_length _ _ hv
  have hj1 : 1 ≤ idxOf s.vis v := by
    rcases Nat.eq_zero_or_pos (idxOf s.vis v) with h0 | h1
    · exact absurd (vis_eq_head_of_idxOf_zero w h s hs v hv h0) hvr
    · exact h1
  have hje : idxOf s.vis v - 1 < s.edges.length := by omega
  refine ⟨hj1, hjlt, hje, ?_⟩
  obtain ⟨hchild, _, _⟩ := espec (idxOf s.vis v - 1) hje
  rw [hchild]
  have hsucc : idxOf s.vis v - 1 + 1 = idxOf s.vis v := by omega
  rw [hsucc, List.getD_eq_getElem?_getD, List.getElem?_eq_getElem hjlt,
    Option.getD_some]
  exact get_idxOf s.vis v hjlt

theorem mid_idxOf_spec (s : IState) (m : ℤ × ℤ) (hm : m ∈ mids s.edges) :
    idxOf (mids s.edges) m < s.edges.length ∧
    midpt (s.edges.getD (idxOf (mids s.edges) m) ((0, 0), (0, 0))) = m := by
  have hlt : idxOf (mids s.edges) m < (mids s.edges).length :=
    idxOf_lt_length _ _ hm
  have hlen : (mids s.edges).length = s.edges.length := mids_length _
  have hlt' : idxOf (mids s.edges) m < s.edges.length := by omega
  refine ⟨hlt', ?_⟩
  have h1 := get_idxOf (mids s.edges) m hlt
  have h2 : (mids s.edges).get ⟨idxOf (mids s.edges) m, hlt⟩ =
      midpt (s.edges.get ⟨idxOf (mids s.edges) m, hlt'⟩) := by
    unfold mids
    exact List.getElem_map _
  rw [List.getD_eq_getElem?_getD, List.getElem?_eq_getElem hlt',
    Option.getD_some]
  rw [h2] at h1
  exact h1

theorem mids_getElem_mem (s : IState) (i : ℕ) (hi : i < s.edges.length) :
    midpt (s.edges.getD i ((0, 0), (0, 0))) ∈ mids s.edges := by
  have hmi : i < (mids s.edges).length := by
    rw [mids_length]; exact hi
  rw [List.getD_eq_getElem?_getD, List.getElem?_eq_getElem hi,
    Option.getD_some]
  have h2 : (mids s.edges)[i] = midpt s.edges[i] := by
    unfold mids
    exact List.getElem_map _
  rw [← h2]
  exact List.getElem_mem hmi

theorem mids_idxOf_le (s : IState) (i : ℕ) (hi : i < s.edges.length) :
    idxOf (mids s.edges) (midpt (s.edges.getD i ((0, 0), (0, 0)))) ≤ i := by
  have hmlen : i < (mids s.edges).length := by
    rw [mids_length]; exact hi
  have hge : (mids s.edges).get ⟨i, hmlen⟩ =
      midpt (s.edges.getD i ((0, 0), (0, 0))) := by
    rw [List.getD_eq_getElem?_getD, List.getElem?_eq_getElem hi,
      Option.getD_some]
    unfold mids
    exact List.getElem_map _
  have hmem : midpt (s.edges.getD i ((0, 0), (0, 0))) ∈
      (mids s.edges).take (i + 1) := by
    rw [← hge]
    exact mem_take_of_getElem _ _ _ hmlen (by omega)
  have := idxOf_lt_of_mem_take (mids s.edges) (i + 1) _ hmem
  omega

theorem unitAdj_symm (a b : ℤ × ℤ) (h : unitAdj a b) : unitAdj b a := by
  unfold unitAdj at h ⊢
  omega

theorem mid_unit_neighbors (p c q : ℤ × ℤ) (hadj : adj2 p c)
    (hq : q.1 % 2 = 1 ∧ q.2 % 2 = 1) (hp : p.1 % 2 = 1 ∧ p.2 % 2 = 1)
    (hu : unitAdj q (midpt (p, c))) : q = p ∨ q = c := by
  obtain ⟨hm1, hm2⟩ := midpt_eq p c hadj
  unfold unitAdj at hu
  obtain ⟨ha1, ha2⟩ | ⟨ha1, ha2⟩ := hadj
  · have hq1 : q.1 = p.1 := by omega
    have hq2 : q.2 = p.2 ∨ q.2 = c.2 := by omega
    rcases hq2 with hq2 | hq2
    · exact Or.inl (Prod.ext_iff.mpr ⟨hq1, hq2⟩)
    · exact Or.inr (Prod.ext_iff.mpr ⟨ha1 ▸ hq1, hq2⟩)
  · have hq2 : q.2 = p.2 := by omega
    have hq1 : q.1 = p.1 ∨ q.1 = c.1 := by omega
    rcases hq1 with hq1 | hq1
    · exact Or.inl (Prod.ext_iff.mpr ⟨hq1, hq2⟩)
    · exact Or.inr (Prod.ext_iff.mpr ⟨hq1, ha1 ▸ hq2⟩)

theorem entrance_neighbor (w h : ℤ) (hw : 3 ≤ w) (hh : 3 ≤ h)
    (s : IState) (hs : Inv w h s) (q : ℤ × ℤ)
    (hq : q ∈ s.vis ∨ q ∈ mids s.edges ∨ q = ((0:ℤ), (1:ℤ)) ∨
      q = (w - 1, h - 2))
    (hu : unitAdj q (0, 1)) : q = (1, 1) := by
  unfold unitAdj at hu
  dsimp only at hu
  rcases hq with hq | hq | hq | hq
  · obtain ⟨_, _, b3, b4, b5, b6⟩ := hs.vis_box q hq
    exact Prod.ext_iff.mpr ⟨by omega, by omega⟩
  · obtain ⟨hpar, b1, b2, b3, b4⟩ := mids_spec w h s hs q hq
    exfalso
    have hq1 : q.1 = 1 := by omega
    have hq2 : q.2 = 1 := by omega
    rcases hpar with ⟨p1, p2⟩ | ⟨p1, p2⟩ <;> omega
  · exfalso
    rw [hq] at hu
    dsimp only at hu
    omega
  · exfalso
    rw [hq] at hu
    dsimp only at hu
    omega

theorem exit_neighbor (w h : ℤ) (hw : 3 ≤ w) (hh : 3 ≤ h)
    (hwo : w % 2 = 1) (hho : h % 2 = 1)
    (s : IState) (hs : Inv w h s) (q : ℤ × ℤ)
    (hq : q ∈ s.vis ∨ q ∈ mids s.edges ∨ q = ((0:ℤ), (1:ℤ)) ∨
      q = (w - 1, h - 2))
    (hu : unitAdj q (w - 1, h - 2)) : q = (w - 2, h - 2) := by
  unfold unitAdj at hu
  dsimp only at hu
  rcases hq with hq | hq | hq | hq
  · obtain ⟨_, _, b3, b4, b5, b6⟩ := hs.vis_box q hq
    exact Prod.ext_iff.mpr ⟨by omega, by omega⟩
  · obtain ⟨hpar, b1, b2, b3, b4⟩ := mids_spec w h s hs q hq
    exfalso
    have hq1 : q.1 = w - 2 := by omega
    have hq2 : q.2 = h - 2 := by omega
    rcases hpar with ⟨p1, p2⟩ | ⟨p1, p2⟩ <;> omega
  · exfalso
    rw [hq] at hu
    dsimp only at hu
    omega
  · exfalso
    rw [hq] at hu
    dsimp only at hu
    omega

theorem passage_mem_iff (w h : ℤ) (hw : 3 ≤ w) (hh : 3 ≤ h)
    (hwo : w % 2 = 1) (hho : h % 2 = 1) (g : RNG.Gen) (c : ℤ × ℤ) :
    c ∈ passageFinset w h (generateMaze w h g) ↔
      c ∈ (generateMazeAux w h g).vis ∨
      c ∈ mids (generateMazeAux w h g).edges ∨
      c = ((0:ℤ), (1:ℤ)) ∨ c = (w - 1, h - 2) := by
  obtain ⟨hempty, hinv⟩ := generateMazeAux_spec w h hw hh hwo hho g
  simp only [passageFinset, Finset.mem_filter, Finset.mem_product,
    Finset.mem_Icc]
  unfold generateMaze
  by_cases hex : c = ((w:ℤ) - 1, h - 2)
  · rw [hex]
    dsimp only
    rw [Grid.upd_same]
    constructor
    · intro hm
      exact Or.inr (Or.inr (Or.inr rfl))
    · intro hm
      exact ⟨⟨⟨by omega, by omega⟩, by omega, by omega⟩, Or.inr (by decide)⟩
  · have hne1 : ¬((c.2 : ℤ) = h - 2 ∧ (c.1 : ℤ) = w - 1) := by
      intro hcon
      exact hex (Prod.ext_iff.mpr ⟨hcon.2, hcon.1⟩)
    rw [Grid.upd_ne _ _ _ _ _ _ hne1]
    by_cases hen : c = ((0:ℤ), (1:ℤ))
    · rw [hen]
      dsimp only
      rw [Grid.upd_same]
      constructor
      · intro hm
        exact Or.inr (Or.inr (Or.inl rfl))
      · intro hm
        refine ⟨⟨⟨by omega, by omega⟩, by omega, by omega⟩, Or.inr (by decide)⟩
    · have hne2 : ¬((c.2 : ℤ) = 1 ∧ (c.1 : ℤ) = 0) := by
        intro hcon
        exact hen (Prod.ext_iff.mpr ⟨hcon.2, hcon.1⟩)
      rw [Grid.upd_ne _ _ _ _ _ _ hne2]
      rw [hinv.maze_char c.1 c.2]
      constructor
      · intro ⟨hbox, hval⟩
        by_cases hmem : ((c.1, c.2) ∈ (generateMazeAux w h g).vis ∨
            (c.1, c.2) ∈ mids (generateMazeAux w h g).edges)
        · rcases hmem with hmem | hmem
          · exact Or.inl hmem
          · exact Or.inr (Or.inl hmem)
        · rw [if_neg hmem] at hval
          rcases hval with hval | hval <;> exact absurd hval (by decide)
      · intro hmem
        have hmem' : ((c.1, c.2) ∈ (generateMazeAux w h g).vis ∨
            (c.1, c.2) ∈ mids (generateMazeAux w h g).edges) := by
          rcases hmem with hm | hm | hm | hm
          · exact Or.inl hm
          · exact Or.inr hm
          · exact absurd hm hen
          · exact absurd hm hex
        rw [if_pos hmem']
        refine ⟨?_, Or.inl rfl⟩
        rcases hmem' with hm | hm
        · obtain ⟨_, _, b3, b4, b5, b6⟩ := hinv.vis_box _ hm
          dsimp only at b3 b4 b5 b6
          exact ⟨⟨by omega, by omega⟩, by omega, by omega⟩
        · obtain ⟨_, b1, b2, b3, b4⟩ := mids_spec w h _ hinv _ hm
          dsimp only at b1 b2 b3 b4
          exact ⟨⟨by omega, by omega⟩, by omega, by omega⟩

theorem vis_length_pos (w h : ℤ) (s : IState) (hs : Inv w h s) :
    0 < s.vis.length := by
  cases hv : s.vis with
  | nil =>
    have := hs.vis_head
    rw [hv] at this
    exact Option.noConfusion this
  | cons a t => simp

theorem parent_spec (w h : ℤ) (hw : 3 ≤ w) (hh : 3 ≤ h)
    (hwo : w % 2 = 1) (hho : h % 2 = 1) (g : RNG.Gen) (c : ℤ × ℤ)
    (hc : c ∈ passageFinset w h (generateMaze w h g))
    (hcr : c ≠ ((1:ℤ), (1:ℤ))) :
    parFun w h (generateMazeAux w h g) c ∈
      passageFinset w h (generateMaze w h g) ∧
    unitAdj (parFun w h (generateMazeAux w h g) c) c ∧
    rankFun w h (generateMazeAux w h g)
        (parFun w h (generateMazeAux w h g) c) <
      rankFun w h (generateMazeAux w h g) c := by
  obtain ⟨hempty, hinv⟩ := generateMazeAux_spec w h hw hh hwo hho g
  obtain ⟨elen, espec⟩ := hinv.aligned
  have hL := vis_length_pos w h _ hinv
  have h11 : ((1:ℤ), (1:ℤ)) ∈ (generateMazeAux w h g).vis :=
    head_mem_of_head? _ _ hinv.vis_head
  rw [passage_mem_iff w h hw hh hwo hho g c] at hc
  rcases hc with hcv | hcm | hce | hcx
  · -- a visited cell other than the root
    obtain ⟨hj1, hjlt, hje, hchild⟩ := vis_parent_edge w h _ hinv c hcv hcr
    obtain ⟨hpc, hptake, hpadj⟩ :=
      espec (idxOf (generateMazeAux w h g).vis c - 1) hje
    rw [parFun_vis w h _ hinv c hcv]
    set e := (generateMazeAux w h g).edges.getD
      (idxOf (generateMazeAux w h g).vis c - 1) ((0, 0), (0, 0)) with he
    have hm_mem : midpt e ∈ mids (generateMazeAux w h g).edges := by
      rw [he]
      exact mids_getElem_mem _ _ hje
    have he1vis : e.1 ∈ (generateMazeAux w h g).vis :=
      List.take_subset _ _ hptake
    have he2vis : e.2 ∈ (generateMazeAux w h g).vis := by
      rw [hchild]
      exact hcv
    obtain ⟨hu1, hu2, hmpar, hb1, hb2, hb3, hb4⟩ :=
      midpt_good w h e.1 e.2 hpadj (hinv.vis_box _ he1vis)
        (hinv.vis_box _ he2vis)
    have humid : unitAdj (midpt e) c := by
      rw [← hchild]
      exact hu2
    have hidx := mids_idxOf_le (generateMazeAux w h g) _ hje
    rw [← he] at hidx
    refine ⟨(passage_mem_iff w h hw hh hwo hho g _).mpr
      (Or.inr (Or.inl hm_mem)), humid, ?_⟩
    rw [rankFun_mid w h _ hinv _ hm_mem, rankFun_vis w h _ hinv c hcv]
    omega
  · -- a carved wall cell
    obtain ⟨hilt, hmid_eq⟩ := mid_idxOf_spec _ c hcm
    obtain ⟨hpc, hptake, hpadj⟩ := espec _ hilt
    rw [parFun_mid w h _ hinv c hcm]
    set e := (generateMazeAux w h g).edges.getD
      (idxOf (mids (generateMazeAux w h g).edges) c) ((0, 0), (0, 0)) with he
    have he1vis : e.1 ∈ (generateMazeAux w h g).vis :=
      List.take_subset _ _ hptake
    have he2vis : e.2 ∈ (generateMazeAux w h g).vis := by
      rw [hpc]
      have hlt2 : idxOf (mids (generateMazeAux w h g).edges) c + 1 <
          (generateMazeAux w h g).vis.length := by omega
      rw [List.getD_eq_getElem?_getD, List.getElem?_eq_getElem hlt2,
        Option.getD_some]
      exact List.getElem_mem hlt2
    obtain ⟨hu1, hu2, hmpar, hb1, hb2, hb3, hb4⟩ :=
      midpt_good w h e.1 e.2 hpadj (hinv.vis_box _ he1vis)
        (hinv.vis_box _ he2vis)
    have humid : unitAdj e.1 c := by
      rw [← hmid_eq]
      exact hu1
    have hidxp : idxOf (generateMazeAux w h g).vis e.1 ≤
        idxOf (mids (generateMazeAux w h g).edges) c :=
      Nat.lt_succ_iff.mp
        (idxOf_lt_of_mem_take _ _ _ hptake)
    refine ⟨(passage_mem_iff w h hw hh hwo hho g _).mpr (Or.inl he1vis),
      humid, ?_⟩
    rw [rankFun_vis w h _ hinv _ he1vis, rankFun_mid w h _ hinv c hcm]
    omega
  · -- the entrance marker
    rw [hce, parFun_entrance]
    refine ⟨(passage_mem_iff w h hw hh hwo hho g _).mpr (Or.inl h11),
      by decide, ?_⟩
    rw [rankFun_entrance]
    have h0 : idxOf (generateMazeAux w h g).vis ((1:ℤ), (1:ℤ)) = 0 :=
      vis_idxOf_head w h _ hinv
    rw [rankFun_vis w h _ hinv _ h11, h0]
    omega
  · -- the exit marker
    rw [hcx, parFun_exit w h hw]
    have hodd : oddCell w h (w - 2, h - 2) :=
      oddCell_mk w h (w - 2) (h - 2) (by omega) (by omega) (by omega)
        (by omega) (by omega) (by omega)
    have hvis : ((w:ℤ) - 2, (h:ℤ) - 2) ∈ (generateMazeAux w h g).vis :=
      all_odd_visited w h _ hinv hempty _ hodd
    refine ⟨(passage_mem_iff w h hw hh hwo hho g _).mpr (Or.inl hvis),
      ?_, ?_⟩
    · unfold unitAdj
      dsimp only
      omega
    · rw [rankFun_exit w h hw, rankFun_vis w h _ hinv _ hvis]
      have := idxOf_lt_length _ _ hvis
      omega

theorem parent_unique (w h : ℤ) (hw : 3 ≤ w) (hh : 3 ≤ h)
    (hwo : w % 2 = 1) (hho : h % 2 = 1) (g : RNG.Gen) (u c : ℤ × ℤ)
    (hu : u ∈ passageFinset w h (generateMaze w h g))
    (hc : c ∈ passageFinset w h (generateMaze w h g))
    (hadj : unitAdj u c)
    (hrank : rankFun w h (generateMazeAux w h g) u <
      rankFun w h (generateMazeAux w h g) c) :
    u = parFun w h (generateMazeAux w h g) c := by
  obtain ⟨hempty, hinv⟩ := generateMazeAux_spec w h hw hh hwo hho g
  obtain ⟨elen, espec⟩ := hinv.aligned
  have hL := vis_length_pos w h _ hinv
  have h11 : ((1:ℤ), (1:ℤ)) ∈ (generateMazeAux w h g).vis :=
    head_mem_of_head? _ _ hinv.vis_head
  rw [passage_mem_iff w h hw hh hwo hho g u] at hu
  rw [passage_mem_iff w h hw hh hwo hho g c] at hc
  rcases hc with hcv | hcm | hce | hcx
  · -- c is a visited cell
    by_cases hc1 : c = ((1:ℤ), (1:ℤ))
    · exfalso
      rw [hc1, rankFun_vis w h _ hinv _ h11, vis_idxOf_head w h _ hinv]
        at hrank
      omega
    · rcases hu with huv | hum | hue | hux
      · exfalso
        obtain ⟨_, _, up1, up2⟩ := vis_not_marker w h _ hinv u huv
        obtain ⟨_, _, cp1, cp2⟩ := vis_not_marker w h _ hinv c hcv
        unfold unitAdj at hadj
        omega
      · -- u is a wall cell: c must be one of its edge endpoints
        obtain ⟨hilt, hmid_eq⟩ := mid_idxOf_spec _ u hum
        obtain ⟨hpc, hptake, hpadj⟩ := espec _ hilt
        set e := (generateMazeAux w h g).edges.getD
          (idxOf (mids (generateMazeAux w h g).edges) u)
          ((0, 0), (0, 0)) with he
        have he1vis : e.1 ∈ (generateMazeAux w h g).vis :=
          List.take_subset _ _ hptake
        have hqm : unitAdj c (midpt e) := by
          rw [hmid_eq]
          exact unitAdj_symm _ _ hadj
        rcases mid_unit_neighbors e.1 e.2 c hpadj
          ((vis_not_marker w h _ hinv c hcv).2.2)
          ((vis_not_marker w h _ hinv e.1 he1vis).2.2) hqm with hce1 | hce2
        · exfalso
          have hidxc : idxOf (generateMazeAux w h g).vis c ≤
              idxOf (mids (generateMazeAux w h g).edges) u := by
            have := idxOf_lt_of_mem_take _ _ c (by rw [hce1]; exact hptake)
            omega
          rw [rankFun_vis w h _ hinv c hcv,
            rankFun_mid w h _ hinv u hum] at hrank
          omega
        · have hlt2 : idxOf (mids (generateMazeAux w h g).edges) u + 1 <
              (generateMazeAux w h g).vis.length := by omega
          have hcg : c = (generateMazeAux w h g).vis.get
              ⟨idxOf (mids (generateMazeAux w h g).edges) u + 1, hlt2⟩ := by
            rw [hce2, hpc, List.getD_eq_getElem?_getD,
              List.getElem?_eq_getElem hlt2, Option.getD_some]
            exact rfl
          have hidxc : idxOf (generateMazeAux w h g).vis c =
              idxOf (mids (generateMazeAux w h g).edges) u + 1 := by
            rw [hcg]
            exact idxOf_get _ hinv.vis_nodup _ hlt2
          rw [parFun_vis w h _ hinv c hcv, hidxc, Nat.add_sub_cancel,
            ← he]
          exact hmid_eq.symm
      · exfalso
        have hc11 := entrance_neighbor w h hw hh _ hinv c
          (Or.inl hcv)
          (by rw [← hue]; exact unitAdj_symm _ _ hadj)
        exact hc1 hc11
      · exfalso
        have hcwh := exit_neighbor w h hw hh hwo hho _ hinv c
          (Or.inl hcv)
          (by rw [← hux]; exact unitAdj_symm _ _ hadj)
        rw [hux, rankFun_exit w h hw, hcwh,
          rankFun_vis w h _ hinv _ (by rw [← hcwh]; exact hcv)] at hrank
        have hlt3 := idxOf_lt_length _ _
          (show ((w:ℤ) - 2, (h:ℤ) - 2) ∈ (generateMazeAux w h g).vis by
            rw [← hcwh]; exact hcv)
        omega
  · -- c is a wall cell
    obtain ⟨hilt, hmid_eq⟩ := mid_idxOf_spec _ c hcm
    obtain ⟨hpc, hptake, hpadj⟩ := espec _ hilt
    set e := (generateMazeAux w h g).edges.getD
      (idxOf (mids (generateMazeAux w h g).edges) c) ((0, 0), (0, 0)) with he
    have he1vis : e.1 ∈ (generateMazeAux w h g).vis :=
      List.take_subset _ _ hptake
    rcases hu with huv | hum | hue | hux
    · have hqm : unitAdj u (midpt e) := by
        rw [hmid_eq]
        exact hadj
      rcases mid_unit_neighbors e.1 e.2 u hpadj
        ((vis_not_marker w h _ hinv u huv).2.2)
        ((vis_not_marker w h _ hinv e.1 he1vis).2.2) hqm with hue1 | hue2
      · rw [parFun_mid w h _ hinv c hcm, ← he]
        exact hue1
      · exfalso
        have hlt2 : idxOf (mids (generateMazeAux w h g).edges) c + 1 <
            (generateMazeAux w h g).vis.length := by omega
        have hug : u = (generateMazeAux w h g).vis.get
            ⟨idxOf (mids (generateMazeAux w h g).edges) c + 1, hlt2⟩ := by
          rw [hue2, hpc, List.getD_eq_getElem?_getD,
            List.getElem?_eq_getElem hlt2, Option.getD_some]
          exact rfl
        have hidxu : idxOf (generateMazeAux w h g).vis u =
            idxOf (mids (generateMazeAux w h g).edges) c + 1 := by
          rw [hug]
          exact idxOf_get _ hinv.vis_nodup _ hlt2
        rw [rankFun_vis w h _ hinv u huv, hidxu,
          rankFun_mid w h _ hinv c hcm] at hrank
        omega
    · exfalso
      obtain ⟨up, _⟩ := mids_spec w h _ hinv u hum
      obtain ⟨cp, _⟩ := mids_spec w h _ hinv c hcm
      unfold unitAdj at hadj
      rcases up with ⟨u1, u2⟩ | ⟨u1, u2⟩ <;>
        rcases cp with ⟨c1, c2⟩ | ⟨c1, c2⟩ <;> omega
    · exfalso
      have hc11 := entrance_neighbor w h hw hh _ hinv c
        (Or.inr (Or.inl hcm))
        (by rw [← hue]; exact unitAdj_symm _ _ hadj)
      have := (mid_not_marker w h _ hinv c hcm).2.2
      rw [hc11] at this
      exact this (by decide)
    · exfalso
      have hcwh := exit_neighbor w h hw hh hwo hho _ hinv c
        (Or.inr (Or.inl hcm))
        (by rw [← hux]; exact unitAdj_symm _ _ hadj)
      have := (mid_not_marker w h _ hinv c hcm).2.2
      rw [hcwh] at this
      exact this ⟨by show ((w:ℤ) - 2) % 2 = 1; omega,
        by show ((h:ℤ) - 2) % 2 = 1; omega⟩
  · -- c is the entrance marker
    rw [hce, parFun_entrance]
    exact entrance_neighbor w h hw hh _ hinv u hu
      (by rw [← hce]; exact hadj)
  · -- c is the exit marker
    rw [hcx, parFun_exit w h hw]
    exact exit_neighbor w h hw hh hwo hho _ hinv u hu
      (by rw [← hcx]; exact hadj)

theorem rank_injective (w h : ℤ) (hw : 3 ≤ w) (hh : 3 ≤ h)
    (hwo : w % 2 = 1) (hho : h % 2 = 1) (g : RNG.Gen) (u c : ℤ × ℤ)
    (hu : u ∈ passageFinset w h (generateMaze w h g))
    (hc : c ∈ passageFinset w h (generateMaze w h g))
    (heq : rankFun w h (generateMazeAux w h g) u =
      rankFun w h (generateMazeAux w h g) c) : u = c := by
  obtain ⟨hempty, hinv⟩ := generateMazeAux_spec w h hw hh hwo hho g
  obtain ⟨elen, espec⟩ := hinv.aligned
  have hL := vis_length_pos w h _ hinv
  rw [passage_mem_iff w h hw hh hwo hho g u] at hu
  rw [passage_mem_iff w h hw hh hwo hho g c] at hc
  rcases hu with huv | hum | hue | hux
  · have hult := idxOf_lt_length _ _ huv
    rw [rankFun_vis w h _ hinv u huv] at heq
    rcases hc with hcv | hcm | hce | hcx
    · have hclt := idxOf_lt_length _ _ hcv
      rw [rankFun_vis w h _ hinv c hcv] at heq
      have h1 := get_idxOf _ u hult
      have h2 := get_idxOf _ c hclt
      have hidx : idxOf (generateMazeAux w h g).vis u =
          idxOf (generateMazeAux w h g).vis c := by omega
      rw [← h1, ← h2]
      exact congrArg _ (Fin.ext hidx)
    · rw [rankFun_mid w h _ hinv c hcm] at heq
      omega
    · rw [hce, rankFun_entrance] at heq
      omega
    · rw [hcx, rankFun_exit w h hw] at heq
      omega
  · have hult := idxOf_lt_length _ _ hum
    rw [mids_length] at hult
    rw [rankFun_mid w h _ hinv u hum] at heq
    rcases hc with hcv | hcm | hce | hcx
    · rw [rankFun_vis w h _ hinv c hcv] at heq
      omega
    · have hclt := idxOf_lt_length _ _ hcm
      rw [rankFun_mid w h _ hinv c hcm] at heq
      have hult' := idxOf_lt_length _ _ hum
      have h1 := get_idxOf _ u hult'
      have h2 := get_idxOf _ c hclt
      have hidx : idxOf (mids (generateMazeAux w h g).edges) u =
          idxOf (mids (generateMazeAux w h g).edges) c := by omega
      rw [← h1, ← h2]
      exact congrArg _ (Fin.ext hidx)
    · rw [hce, rankFun_entrance] at heq
      omega
    · rw [hcx, rankFun_exit w h hw] at heq
      omega
  · rcases hc with hcv | hcm | hce | hcx
    · have hclt := idxOf_lt_length _ _ hcv
      rw [hue, rankFun_entrance, rankFun_vis w h _ hinv c hcv] at heq
      omega
    · have hclt := idxOf_lt_length _ _ hcm
      rw [mids_length] at hclt
      rw [hue, rankFun_entrance, rankFun_mid w h _ hinv c hcm] at heq
      omega
    · rw [hue, hce]
    · rw [hue, hcx, rankFun_entrance, rankFun_exit w h hw] at heq
      omega
  · rcases hc with hcv | hcm | hce | hcx
    · have hclt := idxOf_lt_length _ _ hcv
      rw [hux, rankFun_exit w h hw, rankFun_vis w h _ hinv c hcv] at heq
      omega
    · have hclt := idxOf_lt_length _ _ hcm
      rw [mids_length] at hclt
      rw [hux, rankFun_exit w h hw, rankFun_mid w h _ hinv c hcm] at heq
      omega
    · rw [hux, hce, rankFun_exit w h hw, rankFun_entrance] at heq
      omega
    · rw [hux, hcx]

theorem isTree_of_parent {V : Type} [DecidableEq V] (G : SimpleGraph V)
    (root : V) (rank : V → ℕ) (par : V → V)
    (hpar : ∀ v, v ≠ root → G.Adj (par v) v ∧ rank (par v) < rank v)
    (hup : ∀ u v, G.Adj u v → rank u < rank v → u = par v)
    (hinj : ∀ u v, G.Adj u v → rank u ≠ rank v) :
    G.IsTree := by
  have reach : ∀ (n : ℕ) (v : V), rank v ≤ n → G.Reachable v root := by
    intro n
    induction n with
    | zero =>
      intro v hv
      by_cases hvr : v = root
      · rw [hvr]
      · obtain ⟨_, hlt⟩ := hpar v hvr
        omega
    | succ n ih =>
      intro v hv
      by_cases hvr : v = root
      · rw [hvr]
      · obtain ⟨hadj, hlt⟩ := hpar v hvr
        exact (hadj.symm.reachable).trans (ih (par v) (by omega))
  constructor
  · have hne : Nonempty V := ⟨root⟩
    exact SimpleGraph.Connected.mk (fun u v => (reach (rank u) u le_rfl).trans
      (reach (rank v) v le_rfl).symm)
  · intro u c hc
    obtain ⟨m, hmmem, hmmax⟩ :=
      Finset.exists_max_image c.support.toFinset rank
        ⟨u, List.mem_toFinset.mpr c.start_mem_support⟩
    rw [List.mem_toFinset] at hmmem
    have hmem_of_rot : ∀ x, x ∈ (c.rotate hmmem).support → x ∈ c.support := by
      intro x hx
      rw [SimpleGraph.Walk.support_eq_cons] at hx
      rcases List.mem_cons.mp hx with rfl | hx
      · exact hmmem
      · exact List.mem_of_mem_tail
          (((SimpleGraph.Walk.support_rotate c hmmem).mem_iff).mp hx)
    have hcyc' : (c.rotate hmmem).IsCycle := hc.rotate hmmem
    have hmax : ∀ x ∈ (c.rotate hmmem).support, rank x ≤ rank m := by
      intro x hx
      exact hmmax x (List.mem_toFinset.mpr (hmem_of_rot x hx))
    revert hcyc' hmax
    cases hC : c.rotate hmmem with
    | nil =>
      intro hcyc' hmax
      exact SimpleGraph.Walk.IsCycle.not_of_nil hcyc'
    | cons hadj p =>
      intro hcyc' hmax
      rename_i x
      obtain ⟨y, q, hyu, heq⟩ := SimpleGraph.Walk.exists_cons_eq_concat hadj p
      have h3 := hcyc'.three_le_length
      have hnodup := hcyc'.toIsCircuit.toIsTrail.edges_nodup
      have hxmem : x ∈ (SimpleGraph.Walk.cons hadj p).support := by
        rw [SimpleGraph.Walk.support_cons]
        exact List.mem_cons_of_mem _ p.start_mem_support
      have hymem : y ∈ (SimpleGraph.Walk.cons hadj p).support := by
        rw [heq, SimpleGraph.Walk.support_concat, List.concat_eq_append]
        exact List.mem_append.mpr (Or.inl q.end_mem_support)
      have hedges : (SimpleGraph.Walk.cons hadj p).edges =
          q.edges ++ [s(y, m)] := by
        rw [heq, SimpleGraph.Walk.edges_concat, List.concat_eq_append]
      have hxy : x ≠ y := by
        intro hxyeq
        rw [SimpleGraph.Walk.edges_cons] at hedges hnodup
        cases hqe : q.edges with
        | nil =>
          rw [hqe, List.nil_append] at hedges
          have hpe : p.edges = [] := (List.cons.inj hedges).2
          have hp0 : p.length = 0 := by
            rw [← SimpleGraph.Walk.length_edges, hpe]
            rfl
          rw [SimpleGraph.Walk.length_cons] at h3
          omega
        | cons e es =>
          rw [hqe, List.cons_append] at hedges
          obtain ⟨he, hpe⟩ := List.cons.inj hedges
          have hlast : s(y, m) ∈ p.edges := by
            rw [hpe]
            exact List.mem_append.mpr (Or.inr (List.mem_singleton.mpr rfl))
          have hhead : s(m, x) ∉ p.edges := (List.nodup_cons.mp hnodup).1
          apply hhead
          rw [← hxyeq] at hlast
          rwa [Sym2.eq_swap] at hlast
      have hrx : rank x < rank m :=
        lt_of_le_of_ne (hmax x hxmem) (fun he => hinj m x hadj he.symm)
      have hry : rank y < rank m :=
        lt_of_le_of_ne (hmax y hymem) (fun he => hinj y m hyu he)
      have hx' : x = par m := hup x m hadj.symm hrx
      have hy' : y = par m := hup y m hyu hry
      exact hxy (hx'.trans hy'.symm)

theorem maze_isTree (w h : ℤ) (hw : 3 ≤ w) (hh : 3 ≤ h)
    (hwo : w % 2 = 1) (hho : h % 2 = 1) (g : RNG.Gen) :
    ((1:ℤ), (1:ℤ)) ∈ passageFinset w h (generateMaze w h g) ∧
    (mazeGraph w h (generateMaze w h g)).IsTree := by
  obtain ⟨hempty, hinv⟩ := generateMazeAux_spec w h hw hh hwo hho g
  have h11 : ((1:ℤ), (1:ℤ)) ∈ (generateMazeAux w h g).vis :=
    head_mem_of_head? _ _ hinv.vis_head
  have hroot : ((1:ℤ), (1:ℤ)) ∈ passageFinset w h (generateMaze w h g) :=
    (passage_mem_iff w h hw hh hwo hho g _).mpr (Or.inl h11)
  refine ⟨hroot, ?_⟩
  apply isTree_of_parent (mazeGraph w h (generateMaze w h g))
    ⟨((1:ℤ), (1:ℤ)), hroot⟩
    (fun v => rankFun w h (generateMazeAux w h g) v.1)
    (fun v => if hm : parFun w h (generateMazeAux w h g) v.1 ∈
        passageFinset w h (generateMaze w h g)
      then ⟨parFun w h (generateMazeAux w h g) v.1, hm⟩ else v)
  · intro v hvr
    have hvne : v.1 ≠ ((1:ℤ), (1:ℤ)) := by
      intro hv1
      exact hvr (Subtype.ext hv1)
    obtain ⟨hmem, hadj, hrank⟩ :=
      parent_spec w h hw hh hwo hho g v.1 v.2 hvne
    rw [dif_pos hmem]
    exact ⟨hadj, hrank⟩
  · intro a b hadj hrank
    have hpar := parent_unique w h hw hh hwo hho g a.1 b.1 a.2 b.2 hadj hrank
    have hm : parFun w h (generateMazeAux w h g) b.1 ∈
        passageFinset w h (generateMaze w h g) := by
      rw [← hpar]
      exact a.2
    rw [dif_pos hm]
    exact Subtype.ext hpar
  · intro a b hadj heq
    exact (mazeGraph w h (generateMaze w h g)).ne_of_adj hadj
      (Subtype.ext (rank_injective w h hw hh hwo hho g a.1 b.1 a.2 b.2 heq))

/-- C1: for every odd width and height at least 3 and every generator
stream (hence every fixed seed), after `DepthFirstMazeGenerator::generateMaze`
the passage cells (codes 0 and 2) of the grid form a spanning tree containing
the start cell (1,1): the number of carved connections equals the number of
passage cells minus one, there are no cycles, and between any two passage
cells there is exactly one simple path. -/
theorem generateMaze_spanning_tree (w h : ℤ) (hw : 3 ≤ w) (hh : 3 ≤ h)
    (hwo : w % 2 = 1) (hho : h % 2 = 1) (g : RNG.Gen) :
    ((1:ℤ), (1:ℤ)) ∈ passageFinset w h (generateMaze w h g) ∧
    (mazeGraph w h (generateMaze w h g)).IsTree ∧
    (mazeGraph w h (generateMaze w h g)).edgeFinset.card + 1 =
      (passageFinset w h (generateMaze w h g)).card ∧
    (mazeGraph w h (generateMaze w h g)).IsAcyclic ∧
    ∀ a b : {c : ℤ × ℤ // c ∈ passageFinset w h (generateMaze w h g)},
      ∃! p : (mazeGraph w h (generateMaze w h g)).Walk a b, p.IsPath := by
  obtain ⟨hroot, htree⟩ := maze_isTree w h hw hh hwo hho g
  refine ⟨hroot, htree, ?_, htree.IsAcyclic,
    fun a b => htree.existsUnique_path a b⟩
  rw [htree.card_edgeFinset]
  exact Fintype.card_of_subtype _ (fun x => Iff.rfl)

theorem generateMaze_spanning_tree_witness :
    ((3:ℤ) ≤ 3 ∧ (3:ℤ) % 2 = 1) ∧
    (((1:ℤ), (1:ℤ)) ∈ passageFinset 3 3 (generateMaze 3 3 RNG.zeroGen) ∧
    (mazeGraph 3 3 (generateMaze 3 3 RNG.zeroGen)).IsTree ∧
    (mazeGraph 3 3 (generateMaze 3 3 RNG.zeroGen)).edgeFinset.card + 1 =
      (passageFinset 3 3 (generateMaze 3 3 RNG.zeroGen)).card ∧
    (mazeGraph 3 3 (generateMaze 3 3 RNG.zeroGen)).IsAcyclic ∧
    ∀ a b : {c : ℤ × ℤ // c ∈ passageFinset 3 3 (generateMaze 3 3 RNG.zeroGen)},
      ∃! p : (mazeGraph 3 3 (generateMaze 3 3 RNG.zeroGen)).Walk a b,
        p.IsPath) :=
  ⟨⟨by decide, by decide⟩,
    generateMaze_spanning_tree 3 3 (by decide) (by decide) (by decide)
      (by decide) RNG.zeroGen⟩

/-- C9: for the 9×9 depth-first maze under every generator stream (hence
every seed, including 42), every border cell of the generated grid is WALL
(code 1) except the entrance at row 1, column 0 and the exit at row 7,
column 8, which carry the MARKER code 2. -/
theorem generateMaze_9x9_border (g : RNG.Gen) (x y : ℤ)
    (hb : x = 0 ∨ x = 8 ∨ y = 0 ∨ y = 8) :
    generateMaze 9 9 g y x =
      if (y = 1 ∧ x = 0) ∨ (y = 7 ∧ x = 8) then 2 else 1 := by
  have hgen : generateMaze 9 9 g =
      Grid.upd (Grid.upd (generateMazeAux 9 9 g).maze 1 0 2) 7 8 2 := by
    unfold generateMaze
    norm_num
  rw [hgen]
  by_cases h1 : y = 7 ∧ x = 8
  · obtain ⟨hy, hx⟩ := h1
    subst hy; subst hx
    rw [Grid.upd_same, if_pos (Or.inr ⟨rfl, rfl⟩)]
  · rw [Grid.upd_ne _ _ _ _ _ _ h1]
    by_cases h2 : y = 1 ∧ x = 0
    · obtain ⟨hy, hx⟩ := h2
      subst hy; subst hx
      rw [Grid.upd_same, if_pos (Or.inl ⟨rfl, rfl⟩)]
    · rw [Grid.upd_ne _ _ _ _ _ _ h2,
        border_wall 9 9 (by norm_num) (by norm_num) (by norm_num)
          (by norm_num) g x y (by omega), if_neg]
      intro hcon
      rcases hcon with hcon | hcon
      · exact h2 hcon
      · exact h1 hcon

theorem generateMaze_9x9_border_witness :
    ((0:ℤ) = 0 ∨ (0:ℤ) = 8 ∨ (0:ℤ) = 0 ∨ (0:ℤ) = 8) ∧
    generateMaze 9 9 RNG.zeroGen 0 0 =
      (if ((0:ℤ) = 1 ∧ (0:ℤ) = 0) ∨ ((0:ℤ) = 7 ∧ (0:ℤ) = 8) then 2 else 1) :=
  ⟨Or.inl rfl, generateMaze_9x9_border RNG.zeroGen 0 0 (Or.inl rfl)⟩

end DFS
